import Mathlib

/-!
Verification of the spatialdata coordinate-transformation algebra and
extent (bounding-box) computation, shallowly embedded from the Python
sources (`spatialdata/_core/data_extent.py`, `spatialdata/utils.py`) and,
for the transformation variants themselves, modelled from the design
specification (the variant definitions live outside the provided sources;
only their tests and callers are available).

Numeric coordinates are embedded as rationals: the Python code computes
with floats and compares with tolerances, and every algebraic claim under
study (composition, inversion, serialization round-trips, min/max
aggregation) is exact once rounding is removed.
-/

namespace SpatialData

/-- Modelled from the spec: the dictionary/JSON serialized representation of a
transformation (`{"type": "<variant-tag>", ...variant-specific fields...}`),
exchanged by `to_dict` / `from_dict` and, structurally identically, by
`to_json` / `from_json`. The Python `to_json` is `json.dumps(self.to_dict())`
with the stdlib codec as an external collaborator, so the JSON form is
embedded at the level of its structural value. -/
inductive Dict where
  | str (s : String)
  | num (q : ℚ)
  | arr (xs : List Dict)
  | obj (fields : List (String × Dict))

/-- Modelled from the spec: the transformation variants of the algebra
(`Identity`, `Translation`, `Scale`, `Affine` in homogeneous form,
`Rotation` restricted to the spatial axes, `Sequence` composing children
first-to-last, `MapAxis` permuting axes), instantiated at a coordinate
space with `d` axes. The variant classes live in
`spatialdata/_core/transformations.py`, which is not among the provided
sources; only its test suite is. -/
inductive Transformation (d : ℕ) where
  | identity
  | translation (v : Fin d → ℚ)
  | scale (s : Fin d → ℚ)
  | affine (m : Matrix (Fin (d + 1)) (Fin (d + 1)) ℚ)
  | rotation (m : Matrix (Fin d) (Fin d) ℚ)
  | mapAxis (f : Fin d → Fin d)
  | sequence (ts : List (Transformation d))

namespace Transformation

variable {d : ℕ}

/-- Encode a coordinate vector as a serialized list of numbers. -/
def encodeVec (v : Fin d → ℚ) : List Dict :=
  (List.ofFn v).map Dict.num

/-- Encode a matrix row-by-row. -/
def encodeMat {n : ℕ} (m : Matrix (Fin n) (Fin n) ℚ) : List Dict :=
  List.ofFn fun i => Dict.arr (encodeVec (m i))

/-- Encode an axis permutation/selection as its list of axis indices. -/
def encodeFinVec (f : Fin d → Fin d) : List Dict :=
  (List.ofFn f).map fun i => Dict.num ((i.val : ℚ))

/-- Decode a serialized list of numbers back to a list of rationals. -/
def decodeQList : List Dict → Option (List ℚ)
  | [] => some []
  | Dict.num q :: rest => (decodeQList rest).map fun l => q :: l
  | _ => none

/-- Interpret a list of rationals of the right length as a coordinate vector. -/
def vecOfList (n : ℕ) (l : List ℚ) : Option (Fin n → ℚ) :=
  if h : l.length = n then some (fun i => l.get (Fin.cast h.symm i)) else none

/-- Decode one serialized matrix row. -/
def decodeRow (n : ℕ) : Dict → Option (Fin n → ℚ)
  | Dict.arr xs => (decodeQList xs).bind (vecOfList n)
  | _ => none

/-- Decode a serialized matrix, row-by-row. -/
def decodeRows (n : ℕ) : List Dict → Option (List (Fin n → ℚ))
  | [] => some []
  | r :: rest => (decodeRow n r).bind fun v => (decodeRows n rest).map fun l => v :: l

/-- Decode a full square matrix. -/
def decodeMat (n : ℕ) (rows : List Dict) : Option (Matrix (Fin n) (Fin n) ℚ) :=
  (decodeRows n rows).bind fun l =>
    if h : l.length = n then some (Matrix.of fun i => l.get (Fin.cast h.symm i)) else none

/-- Interpret a list of axis indices of the right length as an axis map. -/
def finVecOfList (n : ℕ) (l : List (Fin n)) : Option (Fin n → Fin n) :=
  if h : l.length = n then some (fun i => l.get (Fin.cast h.symm i)) else none

/-- Decode a serialized axis index. -/
def decodeFin (n : ℕ) : Dict → Option (Fin n)
  | Dict.num q =>
      if h : q.den = 1 ∧ 0 ≤ q.num ∧ q.num < n then
        some ⟨q.num.toNat, by omega⟩
      else none
  | _ => none

/-- Decode a serialized list of axis indices. -/
def decodeFinList (n : ℕ) : List Dict → Option (List (Fin n))
  | [] => some []
  | x :: rest => (decodeFin n x).bind fun i => (decodeFinList n rest).map fun l => i :: l

mutual

/-- Modelled from the spec: `to_dict`, the lossless structural serialization of a
transformation; a `Sequence` serializes as
`{"type": "sequence", "transformations": [<nested>, ...]}`. -/
def toDict : Transformation d → Dict
  | identity => Dict.obj [("type", Dict.str "identity")]
  | translation v => Dict.obj [("type", Dict.str "translation"), ("translation", Dict.arr (encodeVec v))]
  | scale s => Dict.obj [("type", Dict.str "scale"), ("scale", Dict.arr (encodeVec s))]
  | affine m => Dict.obj [("type", Dict.str "affine"), ("affine", Dict.arr (encodeMat m))]
  | rotation m => Dict.obj [("type", Dict.str "rotation"), ("rotation", Dict.arr (encodeMat m))]
  | mapAxis f => Dict.obj [("type", Dict.str "mapAxis"), ("mapAxis", Dict.arr (encodeFinVec f))]
  | sequence ts => Dict.obj [("type", Dict.str "sequence"), ("transformations", Dict.arr (toDictList ts))]

/-- Serialize a list of child transformations in order. -/
def toDictList : List (Transformation d) → List Dict
  | [] => []
  | t :: ts => toDict t :: toDictList ts

end

mutual

/-- Modelled from the spec: `from_dict`, reconstructing a transformation from its
serialized dictionary form; inverse of `toDict` on canonical serialized values. -/
def fromDict (d : ℕ) : Dict → Option (Transformation d)
  | Dict.obj [("type", Dict.str "identity")] => some identity
  | Dict.obj [("type", Dict.str "translation"), ("translation", Dict.arr xs)] =>
      (decodeQList xs).bind fun l => (vecOfList d l).map translation
  | Dict.obj [("type", Dict.str "scale"), ("scale", Dict.arr xs)] =>
      (decodeQList xs).bind fun l => (vecOfList d l).map scale
  | Dict.obj [("type", Dict.str "affine"), ("affine", Dict.arr rows)] =>
      (decodeMat (d + 1) rows).map affine
  | Dict.obj [("type", Dict.str "rotation"), ("rotation", Dict.arr rows)] =>
      (decodeMat d rows).map rotation
  | Dict.obj [("type", Dict.str "mapAxis"), ("mapAxis", Dict.arr xs)] =>
      (decodeFinList d xs).bind fun l => (finVecOfList d l).map mapAxis
  | Dict.obj [("type", Dict.str "sequence"), ("transformations", Dict.arr xs)] =>
      (fromDictList d xs).map sequence
  | _ => none

/-- Deserialize a list of child transformations, failing if any child fails. -/
def fromDictList (d : ℕ) : List Dict → Option (List (Transformation d))
  | [] => some []
  | x :: rest => (fromDict d x).bind fun t => (fromDictList d rest).map fun ts => t :: ts

end

/-- Modelled from the spec: `to_json` serializes via the same structural
representation (`json.dumps` of `to_dict`, the stdlib codec being external). -/
def toJson (t : Transformation d) : Dict := toDict t

/-- Modelled from the spec: `from_json` parses the JSON text and defers to
`from_dict` of the resulting structural value. -/
def fromJson (d : ℕ) (j : Dict) : Option (Transformation d) := fromDict d j

/-- Embed a point into homogeneous coordinates by appending a final `1`. -/
def homog {d : ℕ} (p : Fin d → ℚ) : Fin (d + 1) → ℚ := Fin.snoc p 1

/-- Drop the homogeneous coordinate of a point. -/
def dehomog {d : ℕ} (q : Fin (d + 1) → ℚ) : Fin d → ℚ := fun i => q i.castSucc

/-- The bottom row `(0, ..., 0, 1)` that a homogeneous affine matrix carries. -/
def homRow (d : ℕ) : Fin (d + 1) → ℚ := Fin.snoc (fun _ => 0) 1

mutual

/-- Modelled from the spec: `transform_points` on a single point, per variant.
`Sequence` applies its children first-to-last; `Affine` acts in homogeneous
coordinates; `MapAxis` reads output axis `i` from input axis `f i`. -/
def transformPoint {d : ℕ} : Transformation d → (Fin d → ℚ) → (Fin d → ℚ)
  | identity, p => p
  | translation v, p => fun i => p i + v i
  | scale s, p => fun i => s i * p i
  | affine m, p => dehomog (m.mulVec (homog p))
  | rotation m, p => m.mulVec p
  | mapAxis f, p => fun i => p (f i)
  | sequence ts, p => transformSeq ts p

/-- Apply a list of child transformations in order, threading the point through. -/
def transformSeq {d : ℕ} : List (Transformation d) → (Fin d → ℚ) → (Fin d → ℚ)
  | [], p => p
  | t :: ts, p => transformSeq ts (transformPoint t p)

end

/-- Modelled from the spec: `transform_points` on an N×D point array, embedded as
a list of points (rows = samples); the column count/order is enforced by the
`Fin d` index type. -/
def transformPoints {d : ℕ} (t : Transformation d) (x : List (Fin d → ℚ)) :
    List (Fin d → ℚ) :=
  x.map (transformPoint t)

/-- Executable determinant by Laplace expansion along the first row. -/
def detQ : {n : ℕ} → Matrix (Fin n) (Fin n) ℚ → ℚ
  | 0, _ => 1
  | n + 1, M =>
      ∑ j : Fin (n + 1), (-1) ^ (j : ℕ) * M 0 j * detQ (M.submatrix Fin.succ j.succAbove)

/-- Executable adjugate via first-row-expansion determinants. -/
def adjugateQ {n : ℕ} (A : Matrix (Fin n) (Fin n) ℚ) : Matrix (Fin n) (Fin n) ℚ :=
  Matrix.of fun i j => detQ (A.updateRow j (Pi.single i 1))

mutual

/-- Modelled from the spec: `inverse()`. Returns `none` (the
`NotInvertibleError` outcome) for a degenerate matrix (zero determinant), a
zero scale factor, a non-bijective axis map, or a `Sequence` containing a
non-invertible child; otherwise the mathematical inverse: a `Sequence`
inverts by inverting its children in reverse order. -/
def inverse {d : ℕ} : Transformation d → Option (Transformation d)
  | identity => some identity
  | translation v => some (translation fun i => -v i)
  | scale s =>
      if h : ∀ i, s i ≠ 0 then some (scale fun i => (s i)⁻¹) else none
  | affine m =>
      if h : detQ m = 0 then none else some (affine ((detQ m)⁻¹ • adjugateQ m))
  | rotation m => some (rotation m.transpose)
  | mapAxis f =>
      if h : Function.Bijective f then some (mapAxis (Fintype.bijInv h)) else none
  | sequence ts => (inverseList ts).map fun l => sequence l.reverse

/-- Invert each child of a `Sequence` in order, failing if any child fails. -/
def inverseList {d : ℕ} : List (Transformation d) → Option (List (Transformation d))
  | [] => some []
  | t :: ts => (inverse t).bind fun t' => (inverseList ts).map fun l => t' :: l

end

mutual

/-- The structural invariants the constructors of the Python classes enforce:
an `Affine` homogeneous matrix has bottom row `(0, ..., 0, 1)` and a
`Rotation` matrix is orthonormal; recursively so inside a `Sequence`. -/
def WellFormed {d : ℕ} : Transformation d → Prop
  | affine m => m (Fin.last d) = homRow d
  | rotation m => m.transpose * m = 1
  | sequence ts => WellFormedList ts
  | _ => True

/-- `WellFormed` for every child of a `Sequence`. -/
def WellFormedList {d : ℕ} : List (Transformation d) → Prop
  | [] => True
  | t :: ts => WellFormed t ∧ WellFormedList ts

end

end Transformation

/-- The error taxonomy of the extent computation (`data_extent.py` raises
`ValueError` / `NotImplementedError`; the spec names the conditions
`MissingCoordinateSystemError`, `NoElementsInCoordinateSystemError`,
`UnsupportedElementKindError`; `invalidData` stands for the indexing/assertion
failures hit on empty or malformed geometry). -/
inductive ExtentError where
  | missingCoordinateSystem
  | noElementsInCoordinateSystem
  | unsupportedElementKind
  | invalidData
  deriving DecidableEq

/-- Componentwise minimum of two coordinate vectors. -/
def vecMin {d : ℕ} (a b : Fin d → ℚ) : Fin d → ℚ := fun i => min (a i) (b i)

/-- Componentwise maximum of two coordinate vectors. -/
def vecMax {d : ℕ} (a b : Fin d → ℚ) : Fin d → ℚ := fun i => max (a i) (b i)

/-- Columnwise minimum over a list of points, seeded with a first point
(`np.min(..., axis=0)` over the rows `acc :: l`). -/
def colMin {d : ℕ} : List (Fin d → ℚ) → (Fin d → ℚ) → (Fin d → ℚ)
  | [], acc => acc
  | q :: qs, acc => colMin qs (vecMin acc q)

/-- Columnwise maximum over a list of points, seeded with a first point. -/
def colMax {d : ℕ} : List (Fin d → ℚ) → (Fin d → ℚ) → (Fin d → ℚ)
  | [], acc => acc
  | q :: qs, acc => colMax qs (vecMax acc q)

/-- All 2^d boolean choice vectors, one per corner of a d-dimensional box. -/
def boolVecs : (d : ℕ) → List (Fin d → Bool)
  | 0 => [fun i => i.elim0]
  | d + 1 => (boolVecs d).flatMap fun c => [Fin.cons false c, Fin.cons true c]

/-- The corner of the box `[mn, mx]` selected by the choice vector `c`
(`mx` where `c` is true, `mn` elsewhere). -/
def corner {d : ℕ} (mn mx : Fin d → ℚ) (c : Fin d → Bool) : Fin d → ℚ :=
  fun i => if c i then mx i else mn i

/-- Modelled from the spec: `get_bounding_box_corners` (imported by
`data_extent.py` from `spatialdata._core.query._utils`, not among the provided
sources): the 2^D corner points of the intrinsic bounding box. -/
def boundingBoxCorners {d : ℕ} (mn mx : Fin d → ℚ) : List (Fin d → ℚ) :=
  (boolVecs d).map (corner mn mx)

/-- The geometry payload of a spatial element, dispatched on by `get_extent`:
circle rows (center, radius), polygon/multipolygon rows (vertex lists whose
per-row min/max are the shapely `bounds`), point-table rows, or a raster
(single-scale `SpatialImage` / `MultiscaleSpatialImage`), whose extent is
unimplemented. -/
inductive Geometry (d : ℕ) where
  | circles (rows : List ((Fin d → ℚ) × ℚ))
  | polygons (rows : List (List (Fin d → ℚ)))
  | points (rows : List (Fin d → ℚ))
  | rasterSingle
  | rasterMulti

/-- A spatial element: geometry in intrinsic coordinates, axis names, and the
registered mapping from coordinate-system name to transformation. -/
structure Element (d : ℕ) where
  geom : Geometry d
  axes : Fin d → String
  transformations : List (String × Transformation d)

/-- `get_transformation(element, to_coordinate_system=cs)`: the registered
transformation of this element into the named system, if any. -/
def getTransformation {d : ℕ} (e : Element d) (cs : String) : Option (Transformation d) :=
  (e.transformations.find? fun p => p.1 == cs).map Prod.snd

/-- The coordinate-system names this element has transformations registered for
(`get_transformation(element, get_all=True).keys()`). -/
def coordinateSystems {d : ℕ} (e : Element d) : List String :=
  e.transformations.map Prod.fst

/-- `_check_element_has_coordinate_system`: fail fast with the
`MissingCoordinateSystemError` condition when the requested system is not
registered on the element. -/
def checkElementHasCoordinateSystem {d : ℕ} (e : Element d) (cs : String) :
    Except ExtentError Unit :=
  if cs ∈ coordinateSystems e then Except.ok () else Except.error ExtentError.missingCoordinateSystem

/-- `_get_extent_of_circles`: per axis, min over rows of (center − radius) and
max over rows of (center + radius); indexing the first row fails on an empty
collection. -/
def extentOfCircles {d : ℕ} (rows : List ((Fin d → ℚ) × ℚ)) :
    Except ExtentError ((Fin d → ℚ) × (Fin d → ℚ)) :=
  match rows with
  | [] => Except.error ExtentError.invalidData
  | r :: rest =>
      Except.ok
        (colMin (rest.map fun s => fun i => s.1 i - s.2) (fun i => r.1 i - r.2),
         colMax (rest.map fun s => fun i => s.1 i + s.2) (fun i => r.1 i + r.2))

/-- One row's own bounding box (shapely's per-geometry `bounds`): the
vertex-wise min/max; undefined for an empty geometry. -/
def polygonBounds {d : ℕ} : List (Fin d → ℚ) → Option ((Fin d → ℚ) × (Fin d → ℚ))
  | [] => none
  | v :: vs => some (colMin vs v, colMax vs v)

/-- `_get_extent_of_polygons_multipolygons`: min/max taken from each geometry's
own bounding box, aggregated over all rows. -/
def extentOfPolygons {d : ℕ} (rows : List (List (Fin d → ℚ))) :
    Except ExtentError ((Fin d → ℚ) × (Fin d → ℚ)) :=
  match rows.mapM polygonBounds with
  | none => Except.error ExtentError.invalidData
  | some [] => Except.error ExtentError.invalidData
  | some (b :: bs) =>
      Except.ok (colMin (bs.map Prod.fst) b.1, colMax (bs.map Prod.snd) b.2)

/-- The points overload of `get_extent`: per declared coordinate column, the
column min/max over all rows (the dask `min().compute()` / `max().compute()`). -/
def extentOfPoints {d : ℕ} (rows : List (Fin d → ℚ)) :
    Except ExtentError ((Fin d → ℚ) × (Fin d → ℚ)) :=
  match rows with
  | [] => Except.error ExtentError.invalidData
  | r :: rest => Except.ok (colMin rest r, colMax rest r)

/-- `_compute_extent_in_coordinate_system`: fetch the element's transformation
to the target system, build the 2^D corners of the intrinsic box, transform
them, and take the columnwise min/max of the transformed corners; the axis
names returned are the element's own. -/
def computeExtentInCoordinateSystem {d : ℕ} (e : Element d) (cs : String)
    (mn mx : Fin d → ℚ) :
    Except ExtentError ((Fin d → ℚ) × (Fin d → ℚ) × (Fin d → String)) :=
  match getTransformation e cs with
  | none => Except.error ExtentError.missingCoordinateSystem
  | some t =>
      match (boundingBoxCorners mn mx).map (Transformation.transformPoint t) with
      | [] => Except.error ExtentError.invalidData
      | q :: qs => Except.ok (colMin qs q, colMax qs q, e.axes)

/-- The per-element `get_extent` overloads: check the coordinate system first,
compute the intrinsic extent by geometry kind, then map it into the target
system; rasters raise (`NotImplementedError`, the spec's
`UnsupportedElementKindError` condition) after the coordinate-system check. -/
def getExtentElement {d : ℕ} (e : Element d) (cs : String) :
    Except ExtentError ((Fin d → ℚ) × (Fin d → ℚ) × (Fin d → String)) := do
  let _ ← checkElementHasCoordinateSystem e cs
  match e.geom with
  | Geometry.circles rows => do
      let b ← extentOfCircles rows
      computeExtentInCoordinateSystem e cs b.1 b.2
  | Geometry.polygons rows => do
      let b ← extentOfPolygons rows
      computeExtentInCoordinateSystem e cs b.1 b.2
  | Geometry.points rows => do
      let b ← extentOfPoints rows
      computeExtentInCoordinateSystem e cs b.1 b.2
  | Geometry.rasterSingle => Except.error ExtentError.unsupportedElementKind
  | Geometry.rasterMulti => Except.error ExtentError.unsupportedElementKind

/-- A dataset element of arbitrary dimensionality, as iterated by the
SpatialData overload of `get_extent`. -/
def SigmaElement : Type := (d : ℕ) × Element d

/-- Append one per-axis contribution into the insertion-ordered accumulator
(the `defaultdict(list)` pair keyed by axis name). -/
def insertAxisEntry : List (String × List ℚ × List ℚ) → String → ℚ → ℚ →
    List (String × List ℚ × List ℚ)
  | [], ax, mn, mx => [(ax, [mn], [mx])]
  | (a, ms, xs) :: rest, ax, mn, mx =>
      if a = ax then (a, ms ++ [mn], xs ++ [mx]) :: rest
      else (a, ms, xs) :: insertAxisEntry rest ax mn mx

/-- Record one element's per-axis extent into the accumulator, axis by axis in
the element's own axis order. -/
def insertElementAxes {d : ℕ} (acc : List (String × List ℚ × List ℚ))
    (axes : Fin d → String) (mn mx : Fin d → ℚ) : List (String × List ℚ × List ℚ) :=
  (List.finRange d).foldl (fun a i => insertAxisEntry a (axes i) (mn i) (mx i)) acc

/-- The element loop of the SpatialData `get_extent` overload: elements that do
not declare the requested coordinate system are skipped; contributing elements'
per-axis minima/maxima are appended into the accumulator; any error from a
contributing element propagates. -/
def collectExtents : List SigmaElement → String → List (String × List ℚ × List ℚ) →
    Except ExtentError (List (String × List ℚ × List ℚ))
  | [], _, acc => Except.ok acc
  | ⟨_, e⟩ :: rest, cs, acc =>
      if cs ∈ coordinateSystems e then
        match getExtentElement e cs with
        | Except.error err => Except.error err
        | Except.ok r => collectExtents rest cs (insertElementAxes acc r.2.2 r.1 r.2.1)
      else collectExtents rest cs acc

/-- Minimum of a list of rationals seeded at its head (`min(list)`). -/
def listMin : List ℚ → ℚ
  | [] => 0
  | x :: xs => xs.foldl min x

/-- Maximum of a list of rationals seeded at its head (`max(list)`). -/
def listMax : List ℚ → ℚ
  | [] => 0
  | x :: xs => xs.foldl max x

/-- The SpatialData overload of `get_extent`: union the per-element extents per
axis name over all elements registered to the requested system; raise the
`NoElementsInCoordinateSystemError` condition when no axis was contributed. -/
def getExtentSpatialData (elems : List SigmaElement) (cs : String) :
    Except ExtentError (List (String × ℚ × ℚ)) :=
  match collectExtents elems cs [] with
  | Except.error err => Except.error err
  | Except.ok [] => Except.error ExtentError.noElementsInCoordinateSystem
  | Except.ok (a :: acc) =>
      Except.ok ((a :: acc).map fun p => (p.1, listMin p.2.1, listMax p.2.2))

/-- The flattened list of per-axis contributions `(axis name, element min,
element max)`, in element order, over exactly the elements that declare the
requested coordinate system; the statement-level vocabulary for the union. -/
def contributions : List SigmaElement → String → Except ExtentError (List (String × ℚ × ℚ))
  | [], _ => Except.ok []
  | ⟨d, e⟩ :: rest, cs =>
      if cs ∈ coordinateSystems e then
        match getExtentElement e cs with
        | Except.error err => Except.error err
        | Except.ok r =>
            match contributions rest cs with
            | Except.error err => Except.error err
            | Except.ok f =>
                Except.ok (((List.finRange d).map fun i => (r.2.2 i, r.1 i, r.2.1 i)) ++ f)
      else contributions rest cs

/-- Accumulator lookup by axis name. -/
def lookupAxis : List (String × List ℚ × List ℚ) → String → Option (List ℚ × List ℚ)
  | [], _ => none
  | (a, ms, xs) :: rest, ax => if a = ax then some (ms, xs) else lookupAxis rest ax

/-- Fold a flat contribution list into the accumulator, one `insertAxisEntry`
per contribution; `collectExtents` is this fold composed with `contributions`. -/
def groupInto (acc : List (String × List ℚ × List ℚ)) :
    List (String × ℚ × ℚ) → List (String × List ℚ × List ℚ)
  | [] => acc
  | c :: rest => groupInto (insertAxisEntry acc c.1 c.2.1 c.2.2) rest

/-- The per-element minima contributed for a given axis name, in order. -/
def axisMins (flat : List (String × ℚ × ℚ)) (ax : String) : List ℚ :=
  (flat.filter fun c => c.1 == ax).map fun c => c.2.1

/-- The per-element maxima contributed for a given axis name, in order. -/
def axisMaxs (flat : List (String × ℚ × ℚ)) (ax : String) : List ℚ :=
  (flat.filter fun c => c.1 == ax).map fun c => c.2.2

/-- The 90° rotation of test 10 of the spec (`(x, y) ↦ (−y, x)`). -/
def rot90 : Transformation 2 := Transformation.rotation !![0, -1; 1, 0]

/-- A concrete two-axis element carrying `rot90` registered to `"global"`. -/
def rotElement : Element 2 :=
  { geom := Geometry.points [fun _ => 0],
    axes := fun _ => "",
    transformations := [("global", rot90)] }

/-- The circle collection of test 7 of the spec: centers `(0,0)` and `(10,0)`,
both of radius 1. -/
def exCircles : List ((Fin 2 → ℚ) × ℚ) := [(![0, 0], 1), (![10, 0], 1)]

/-- A concrete single-scale raster element registered to `"global"`. -/
def rasterElement : Element 2 :=
  { geom := Geometry.rasterSingle, axes := fun _ => "",
    transformations := [("global", Transformation.identity)] }

/-- A concrete non-degenerate scale vector. -/
def exScaleVec : Fin 2 → ℚ := ![2, 4]

/-- A concrete element registered only to `"local"`, not `"global"`. -/
def otherElement : Element 2 :=
  { geom := Geometry.points [fun _ => 0], axes := fun _ => "",
    transformations := [("local", Transformation.identity)] }

namespace Unpad

/-- The transformation values handled by `unpad_raster`
(`spatialdata/utils.py`): a `Translation` carries its values and axis names, a
`Sequence` its children; `identity` and `opaqueBase` stand for whatever other
transformation was registered on the input raster. -/
inductive UTrans where
  | identity
  | opaqueBase (tag : ℕ)
  | translation (values : List ℚ) (axes : List String)
  | sequence (ts : List UTrans)

/-- A raster element: named dimensions, a shape, dense data indexed by index
tuples, and the registered transformation mapping. -/
structure Raster where
  dims : List String
  shape : List ℕ
  data : List ℕ → ℚ
  transformations : List (String × UTrans)

/-- The absolute tolerance of `da.isclose(·, 0)` (`rtol` contributes nothing
against 0). -/
def atol : ℚ := 1 / 100000000

/-- All index tuples of a given shape, lexicographically. -/
def allIndices : List ℕ → List (List ℕ)
  | [] => [[]]
  | n :: rest => (List.range n).flatMap fun i => (allIndices rest).map fun idx => i :: idx

/-- `data.sum(dim=others)` evaluated at position `i` of axis `a`: the sum of
the data over all index tuples whose `a`-th coordinate is `i`. -/
def axisSum (shape : List ℕ) (data : List ℕ → ℚ) (a : ℕ) (i : ℕ) : ℚ :=
  (((allIndices shape).filter fun idx => idx.getD a 0 == i).map data).sum

/-- `np.where(x == 0)[0]` for `x = isclose(sum, 0)`: the positions along axis
`a` whose slice sum is *not* within tolerance of zero, in ascending order. -/
def nonZeroIdx (shape : List ℕ) (data : List ℕ → ℚ) (a : ℕ) : List ℕ :=
  (List.range (shape.getD a 0)).filter fun i => decide (atol < |axisSum shape data a i|)

/-- `_unpad_axis`: if every slice sums to (near) zero the data is returned
unchanged with offset 0; otherwise the axis is sliced to
`[first_nonzero, last_nonzero + 1)` and the left pad is returned. -/
def unpadAxis (shape : List ℕ) (data : List ℕ → ℚ) (a : ℕ) :
    (List ℕ × (List ℕ → ℚ)) × ℕ :=
  match nonZeroIdx shape data a with
  | [] => ((shape, data), 0)
  | i0 :: rest =>
      let leftPad := i0
      let rightPad := (i0 :: rest).getLast (List.cons_ne_nil i0 rest) + 1
      ((shape.set a (rightPad - leftPad),
        fun idx => data (idx.set a (idx.getD a 0 + leftPad))), leftPad)

/-- The axis loop of `unpad_raster` over dimension positions: positions whose
dimension name is `"c"` are skipped; the others are unpadded in order,
collecting the translation axis names and left-pad values. -/
def unpadLoop (dims : List String) : List ℕ → List ℕ → (List ℕ → ℚ) →
    (List ℕ × (List ℕ → ℚ)) × List String × List ℚ
  | [], shape, data => ((shape, data), [], [])
  | k :: ks, shape, data =>
      if dims.getD k "" = "c" then unpadLoop dims ks shape data
      else
        let r := unpadAxis shape data k
        let rest := unpadLoop dims ks r.1.1 r.1.2
        (rest.1, dims.getD k "" :: rest.2.1, ((r.2 : ℕ) : ℚ) :: rest.2.2)

/-- The translation axis names collected by `unpad_raster`. -/
def unpadTranslationAxes (r : Raster) : List String :=
  (unpadLoop r.dims (List.range r.dims.length) r.shape r.data).2.1

/-- The translation values (per-axis left pads) collected by `unpad_raster`. -/
def unpadTranslationValues (r : Raster) : List ℚ :=
  (unpadLoop r.dims (List.range r.dims.length) r.shape r.data).2.2

/-- `unpad_raster` on a single-scale raster: unpad every non-channel axis in
order, then register, for every coordinate system of the input, the Sequence
of the left-pad Translation followed by the old transformation. -/
def unpadRaster (r : Raster) : Raster :=
  { dims := r.dims
    shape := (unpadLoop r.dims (List.range r.dims.length) r.shape r.data).1.1
    data := (unpadLoop r.dims (List.range r.dims.length) r.shape r.data).1.2
    transformations := r.transformations.map fun p =>
      (p.1, UTrans.sequence
        [UTrans.translation (unpadTranslationValues r) (unpadTranslationAxes r), p.2]) }

/-- A concrete 2×2 raster whose first row sums to zero without being all-zero:
the y = 0 border slice holds the values 1 and −1. -/
def exPadData : List ℕ → ℚ
  | [0, 0] => 1
  | [0, 1] => -1
  | [1, 0] => 3
  | [1, 1] => 5
  | _ => 0

/-- The counterexample raster for the all-zero-padding reading. -/
def exPadRaster : Raster :=
  { dims := ["y", "x"], shape := [2, 2], data := exPadData,
    transformations := [("global", UTrans.identity)] }

end Unpad

-- THEOREMSECTION

namespace Transformation

theorem decodeQList_encodeVec (v : Fin d → ℚ) : decodeQList (encodeVec v) = some (List.ofFn v) := by
  unfold encodeVec
  generalize List.ofFn v = l
  induction l with
  | nil => rfl
  | cons x xs ih => simp [decodeQList, ih]

theorem vecOfList_ofFn (v : Fin d → ℚ) : vecOfList d (List.ofFn v) = some v := by
  unfold vecOfList
  rw [dif_pos (List.length_ofFn v)]
  congr 1
  funext i
  simp [List.get_ofFn]

theorem finVecOfList_ofFn (f : Fin d → Fin d) : finVecOfList d (List.ofFn f) = some f := by
  unfold finVecOfList
  rw [dif_pos (List.length_ofFn f)]
  congr 1
  funext i
  simp [List.get_ofFn]

theorem decodeRows_map_encode {n : ℕ} (l : List (Fin n → ℚ)) :
    decodeRows n (l.map fun v => Dict.arr (encodeVec v)) = some l := by
  induction l with
  | nil => rfl
  | cons v rest ih =>
      simp [decodeRows, decodeRow, decodeQList_encodeVec, vecOfList_ofFn, ih]

theorem decodeMat_encodeMat {n : ℕ} (m : Matrix (Fin n) (Fin n) ℚ) :
    decodeMat n (encodeMat m) = some m := by
  have henc : encodeMat m = (List.ofFn fun i => m i).map fun v => Dict.arr (encodeVec v) := by
    rw [List.map_ofFn]; rfl
  rw [decodeMat, henc, decodeRows_map_encode]
  rw [Option.some_bind, dif_pos (List.length_ofFn fun i => m i)]
  congr 1
  funext i j
  simp [Matrix.of_apply, List.get_ofFn]

theorem decodeFin_encode (i : Fin d) : decodeFin d (Dict.num ((i.val : ℚ))) = some i := by
  have hden : ((i.val : ℚ)).den = 1 := Rat.den_natCast _
  have hnum : ((i.val : ℚ)).num = i.val := Rat.num_natCast _
  have hlt : ((i.val : ℚ)).num < d := by rw [hnum]; exact_mod_cast i.isLt
  have hge : 0 ≤ ((i.val : ℚ)).num := by rw [hnum]; exact Int.natCast_nonneg _
  simp only [decodeFin]
  rw [dif_pos ⟨hden, hge, hlt⟩]
  simp [Fin.ext_iff, hnum]

theorem decodeFinList_map_encode (l : List (Fin d)) :
    decodeFinList d (l.map fun i => Dict.num ((i.val : ℚ))) = some l := by
  induction l with
  | nil => rfl
  | cons i rest ih =>
      rw [List.map_cons]
      simp only [decodeFinList]
      rw [decodeFin_encode, Option.some_bind, ih]
      rfl

theorem decodeFinList_encodeFinVec (f : Fin d → Fin d) :
    decodeFinList d (encodeFinVec f) = some (List.ofFn f) :=
  decodeFinList_map_encode (List.ofFn f)

set_option maxHeartbeats 2000000 in
mutual

theorem fromDict_toDict (t : Transformation d) : fromDict d (toDict t) = some t := by
  cases t with
  | identity => rfl
  | translation v => simp [toDict, fromDict, decodeQList_encodeVec, vecOfList_ofFn]
  | scale s => simp [toDict, fromDict, decodeQList_encodeVec, vecOfList_ofFn]
  | affine m => simp [toDict, fromDict, decodeMat_encodeMat]
  | rotation m => simp [toDict, fromDict, decodeMat_encodeMat]
  | mapAxis f => simp [toDict, fromDict, decodeFinList_encodeFinVec, finVecOfList_ofFn]
  | sequence ts => simp [toDict, fromDict, fromDictList_toDictList ts]

theorem fromDictList_toDictList (ts : List (Transformation d)) :
    fromDictList d (toDictList ts) = some ts := by
  cases ts with
  | nil => rfl
  | cons t rest =>
      simp [toDictList, fromDictList, fromDict_toDict t, fromDictList_toDictList rest]

end

theorem detQ_eq_det : ∀ {n : ℕ} (M : Matrix (Fin n) (Fin n) ℚ), detQ M = M.det := by
  intro n
  induction n with
  | zero => intro M; rw [Matrix.det_fin_zero, detQ]
  | succ k ih =>
      intro M
      rw [Matrix.det_succ_row_zero, detQ]
      exact Finset.sum_congr rfl fun j _ => by rw [ih]

theorem adjugateQ_eq_adjugate {n : ℕ} (A : Matrix (Fin n) (Fin n) ℚ) :
    adjugateQ A = A.adjugate := by
  ext i j
  rw [adjugateQ, Matrix.of_apply, detQ_eq_det, Matrix.adjugate_apply]

theorem dehomog_homog {d : ℕ} (p : Fin d → ℚ) : dehomog (homog p) = p := by
  funext i
  simp [dehomog, homog, Fin.snoc_castSucc]

theorem homog_dehomog {d : ℕ} (v : Fin (d + 1) → ℚ) (hv : v (Fin.last d) = 1) :
    homog (dehomog v) = v := by
  funext j
  refine Fin.lastCases ?_ (fun i => ?_) j
  · simp [homog, Fin.snoc_last, hv]
  · simp [homog, dehomog, Fin.snoc_castSucc]

theorem mulVec_homRow_last {d : ℕ} (m : Matrix (Fin (d + 1)) (Fin (d + 1)) ℚ)
    (hm : m (Fin.last d) = homRow d) (p : Fin d → ℚ) :
    m.mulVec (homog p) (Fin.last d) = 1 := by
  have hsum : m.mulVec (homog p) (Fin.last d) = ∑ j, m (Fin.last d) j * homog p j := by
    simp [Matrix.mulVec, Matrix.dotProduct]
  rw [hsum, hm]
  unfold homRow homog
  rw [Fin.sum_univ_castSucc]
  simp [Fin.snoc_castSucc, Fin.snoc_last]

theorem transformSeq_append {d : ℕ} (a b : List (Transformation d)) (p : Fin d → ℚ) :
    transformSeq (a ++ b) p = transformSeq b (transformSeq a p) := by
  induction a generalizing p with
  | nil => rfl
  | cons t rest ih =>
      simp only [List.cons_append, transformSeq]
      exact ih (transformPoint t p)

mutual

theorem transformPoint_inverse {d : ℕ} (t t' : Transformation d) (hw : WellFormed t)
    (hi : inverse t = some t') (p : Fin d → ℚ) :
    transformPoint t' (transformPoint t p) = p := by
  cases t with
  | identity =>
      simp only [inverse, Option.some.injEq] at hi
      subst hi; rfl
  | translation v =>
      simp only [inverse, Option.some.injEq] at hi
      subst hi
      funext i
      simp [transformPoint]
  | scale s =>
      rw [inverse] at hi
      split at hi
      · next h =>
          simp only [Option.some.injEq] at hi
          subst hi
          funext i
          simp only [transformPoint]
          rw [← mul_assoc, inv_mul_cancel₀ (h i), one_mul]
      · exact absurd hi (by simp)
  | affine m =>
      rw [inverse] at hi
      split at hi
      · exact absurd hi (by simp)
      · next hdet =>
          simp only [Option.some.injEq] at hi
          subst hi
          have hw' : m (Fin.last d) = homRow d := hw
          funext i
          simp only [transformPoint]
          rw [homog_dehomog (m.mulVec (homog p)) (mulVec_homRow_last m hw' p)]
          rw [Matrix.mulVec_mulVec]
          have hunit : ((detQ m)⁻¹ • adjugateQ m) * m = 1 := by
            rw [adjugateQ_eq_adjugate, Matrix.smul_mul, Matrix.adjugate_mul, smul_smul,
              detQ_eq_det, inv_mul_cancel₀ (by rw [← detQ_eq_det]; exact hdet), one_smul]
          rw [hunit, Matrix.one_mulVec, dehomog_homog]
  | rotation m =>
      simp only [inverse, Option.some.injEq] at hi
      subst hi
      have hw' : m.transpose * m = 1 := hw
      simp only [transformPoint]
      rw [Matrix.mulVec_mulVec, hw', Matrix.one_mulVec]
  | mapAxis f =>
      rw [inverse] at hi
      split at hi
      · next h =>
          simp only [Option.some.injEq] at hi
          subst hi
          funext i
          simp only [transformPoint]
          rw [Fintype.rightInverse_bijInv h i]
      · exact absurd hi (by simp)
  | sequence ts =>
      rw [inverse] at hi
      cases hlist : inverseList ts with
      | none => rw [hlist] at hi; exact absurd hi (by simp)
      | some ts' =>
          rw [hlist, Option.map_some'] at hi
          simp only [Option.some.injEq] at hi
          subst hi
          have hw' : WellFormedList ts := hw
          exact transformSeq_inverseList ts ts' hw' hlist p

theorem transformSeq_inverseList {d : ℕ} (ts ts' : List (Transformation d))
    (hw : WellFormedList ts) (hi : inverseList ts = some ts') (p : Fin d → ℚ) :
    transformSeq ts'.reverse (transformSeq ts p) = p := by
  cases ts with
  | nil =>
      simp only [inverseList, Option.some.injEq] at hi
      subst hi; rfl
  | cons t rest =>
      rw [inverseList] at hi
      cases ht : inverse t with
      | none => rw [ht] at hi; exact absurd hi (by simp)
      | some t1 =>
          rw [ht, Option.some_bind] at hi
          cases hrest : inverseList rest with
          | none => rw [hrest] at hi; exact absurd hi (by simp)
          | some rest1 =>
              rw [hrest, Option.map_some'] at hi
              simp only [Option.some.injEq] at hi
              subst hi
              rw [List.reverse_cons, transformSeq_append]
              simp only [transformSeq]
              rw [transformSeq_inverseList rest rest1 hw.2 hrest (transformPoint t p)]
              exact transformPoint_inverse t t1 hw.1 ht p

end

theorem inverseList_none_of_mem {d : ℕ} (ts : List (Transformation d))
    (t : Transformation d) (hmem : t ∈ ts) (hnone : inverse t = none) :
    inverseList ts = none := by
  induction ts with
  | nil => cases hmem
  | cons a rest ih =>
      rw [inverseList]
      rcases List.mem_cons.mp hmem with h | h
      · subst h; rw [hnone]; rfl
      · cases ha : inverse a with
        | none => rfl
        | some a' => rw [Option.some_bind, ih h]; rfl

end Transformation

theorem colMin_le_seed {d : ℕ} (l : List (Fin d → ℚ)) (acc : Fin d → ℚ) (i : Fin d) :
    colMin l acc i ≤ acc i := by
  induction l generalizing acc with
  | nil => exact le_refl _
  | cons b bs ih =>
      simp only [colMin]
      exact le_trans (ih (vecMin acc b)) (min_le_left _ _)

theorem colMax_ge_seed {d : ℕ} (l : List (Fin d → ℚ)) (acc : Fin d → ℚ) (i : Fin d) :
    acc i ≤ colMax l acc i := by
  induction l generalizing acc with
  | nil => exact le_refl _
  | cons b bs ih =>
      simp only [colMax]
      exact le_trans (le_max_left _ _) (ih (vecMax acc b))

theorem colMin_le_cons {d : ℕ} (qs : List (Fin d → ℚ)) (q x : Fin d → ℚ)
    (hx : x ∈ q :: qs) (i : Fin d) : colMin qs q i ≤ x i := by
  induction qs generalizing q with
  | nil =>
      rcases List.mem_singleton.mp hx with rfl
      exact le_refl _
  | cons b bs ih =>
      simp only [colMin]
      rcases List.mem_cons.mp hx with rfl | hx'
      · exact le_trans (colMin_le_seed bs (vecMin x b) i) (min_le_left _ _)
      · rcases List.mem_cons.mp hx' with rfl | hx''
        · exact le_trans (colMin_le_seed bs (vecMin q x) i) (min_le_right _ _)
        · exact ih (vecMin q b) (List.mem_cons_of_mem _ hx'')

theorem colMax_ge_cons {d : ℕ} (qs : List (Fin d → ℚ)) (q x : Fin d → ℚ)
    (hx : x ∈ q :: qs) (i : Fin d) : x i ≤ colMax qs q i := by
  induction qs generalizing q with
  | nil =>
      rcases List.mem_singleton.mp hx with rfl
      exact le_refl _
  | cons b bs ih =>
      simp only [colMax]
      rcases List.mem_cons.mp hx with rfl | hx'
      · exact le_trans (le_max_left _ _) (colMax_ge_seed bs (vecMax x b) i)
      · rcases List.mem_cons.mp hx' with rfl | hx''
        · exact le_trans (le_max_right _ _) (colMax_ge_seed bs (vecMax q x) i)
        · exact ih (vecMax q b) (List.mem_cons_of_mem _ hx'')

theorem colMin_attain_cons {d : ℕ} (qs : List (Fin d → ℚ)) (q : Fin d → ℚ) (i : Fin d) :
    ∃ x ∈ q :: qs, colMin qs q i = x i := by
  induction qs generalizing q with
  | nil => exact ⟨q, List.mem_singleton.mpr rfl, rfl⟩
  | cons b bs ih =>
      simp only [colMin]
      obtain ⟨x, hmem, hx⟩ := ih (vecMin q b)
      rcases List.mem_cons.mp hmem with rfl | hxbs
      · rcases min_choice (q i) (b i) with h | h
        · exact ⟨q, List.mem_cons_self _ _, by rw [hx]; exact h⟩
        · exact ⟨b, List.mem_cons_of_mem _ (List.mem_cons_self _ _), by rw [hx]; exact h⟩
      · exact ⟨x, List.mem_cons_of_mem _ (List.mem_cons_of_mem _ hxbs), hx⟩

theorem colMax_attain_cons {d : ℕ} (qs : List (Fin d → ℚ)) (q : Fin d → ℚ) (i : Fin d) :
    ∃ x ∈ q :: qs, colMax qs q i = x i := by
  induction qs generalizing q with
  | nil => exact ⟨q, List.mem_singleton.mpr rfl, rfl⟩
  | cons b bs ih =>
      simp only [colMax]
      obtain ⟨x, hmem, hx⟩ := ih (vecMax q b)
      rcases List.mem_cons.mp hmem with rfl | hxbs
      · rcases max_choice (q i) (b i) with h | h
        · exact ⟨q, List.mem_cons_self _ _, by rw [hx]; exact h⟩
        · exact ⟨b, List.mem_cons_of_mem _ (List.mem_cons_self _ _), by rw [hx]; exact h⟩
      · exact ⟨x, List.mem_cons_of_mem _ (List.mem_cons_of_mem _ hxbs), hx⟩

theorem mem_boolVecs {d : ℕ} (c : Fin d → Bool) : c ∈ boolVecs d := by
  induction d with
  | zero =>
      rw [boolVecs]
      apply List.mem_singleton.mpr
      funext i
      exact i.elim0
  | succ k ih =>
      rw [boolVecs, List.mem_flatMap]
      refine ⟨Fin.tail c, ih (Fin.tail c), ?_⟩
      rcases hb : c 0 with _ | _
      · exact List.mem_cons.mpr (Or.inl (by rw [← hb]; exact (Fin.cons_self_tail c).symm))
      · exact List.mem_cons.mpr
          (Or.inr (List.mem_singleton.mpr (by rw [← hb]; exact (Fin.cons_self_tail c).symm)))

theorem boundingBoxCorners_mem {d : ℕ} (mn mx : Fin d → ℚ) (c : Fin d → Bool) :
    corner mn mx c ∈ boundingBoxCorners mn mx :=
  List.mem_map_of_mem _ (mem_boolVecs c)

/-- Inversion principle for `_compute_extent_in_coordinate_system`: a
successful result consists of the columnwise min/max over the transformed
corner points, together with the element's own axis names. -/
theorem computeExtent_ok_inv {d : ℕ} (e : Element d) (cs : String)
    (mn mx : Fin d → ℚ) (t : Transformation d)
    (res : (Fin d → ℚ) × (Fin d → ℚ) × (Fin d → String))
    (ht : getTransformation e cs = some t)
    (hok : computeExtentInCoordinateSystem e cs mn mx = Except.ok res) :
    ∃ q qs, (boundingBoxCorners mn mx).map (Transformation.transformPoint t) = q :: qs
      ∧ res = (colMin qs q, colMax qs q, e.axes) := by
  unfold computeExtentInCoordinateSystem at hok
  rw [ht] at hok
  replace hok : (match (boundingBoxCorners mn mx).map (Transformation.transformPoint t) with
      | [] => Except.error ExtentError.invalidData
      | q :: qs => Except.ok (colMin qs q, colMax qs q, e.axes)) = Except.ok res := hok
  cases hmap : (boundingBoxCorners mn mx).map (Transformation.transformPoint t) with
  | nil =>
      exfalso
      have hmem := List.mem_map_of_mem (Transformation.transformPoint t)
        (boundingBoxCorners_mem mn mx fun _ => false)
      rw [hmap] at hmem
      cases hmem
  | cons q qs =>
      rw [hmap] at hok
      refine ⟨q, qs, rfl, ?_⟩
      cases hok
      rfl

/-- Any result of `_compute_extent_in_coordinate_system` is columnwise ordered:
min ≤ max on every axis. -/
theorem computeExtent_min_le_max {d : ℕ} (e : Element d) (cs : String)
    (mn mx : Fin d → ℚ) (res : (Fin d → ℚ) × (Fin d → ℚ) × (Fin d → String))
    (hok : computeExtentInCoordinateSystem e cs mn mx = Except.ok res) (i : Fin d) :
    res.1 i ≤ res.2.1 i := by
  unfold computeExtentInCoordinateSystem at hok
  cases ht : getTransformation e cs with
  | none => rw [ht] at hok; cases hok
  | some t =>
      rw [ht] at hok
      replace hok : (match (boundingBoxCorners mn mx).map (Transformation.transformPoint t) with
          | [] => Except.error ExtentError.invalidData
          | q :: qs => Except.ok (colMin qs q, colMax qs q, e.axes)) = Except.ok res := hok
      cases hmap : (boundingBoxCorners mn mx).map (Transformation.transformPoint t) with
      | nil => rw [hmap] at hok; cases hok
      | cons q qs =>
          rw [hmap] at hok
          cases hok
          exact le_trans (colMin_le_cons qs q q (List.mem_cons_self _ _) i)
            (colMax_ge_cons qs q q (List.mem_cons_self _ _) i)

/-- A successful per-element extent passed through
`_compute_extent_in_coordinate_system`. -/
theorem getExtentElement_ok_inv {d : ℕ} (e : Element d) (cs : String)
    (res : (Fin d → ℚ) × (Fin d → ℚ) × (Fin d → String))
    (hok : getExtentElement e cs = Except.ok res) :
    ∃ mn mx, computeExtentInCoordinateSystem e cs mn mx = Except.ok res := by
  unfold getExtentElement checkElementHasCoordinateSystem at hok
  by_cases hmem : cs ∈ coordinateSystems e
  · rw [if_pos hmem] at hok
    cases hg : e.geom with
    | circles rows =>
        rw [hg] at hok
        replace hok : ((extentOfCircles rows).bind fun b =>
            computeExtentInCoordinateSystem e cs b.1 b.2) = Except.ok res := hok
        cases hb : extentOfCircles rows with
        | error err => rw [hb] at hok; cases hok
        | ok b => rw [hb] at hok; exact ⟨b.1, b.2, hok⟩
    | polygons rows =>
        rw [hg] at hok
        replace hok : ((extentOfPolygons rows).bind fun b =>
            computeExtentInCoordinateSystem e cs b.1 b.2) = Except.ok res := hok
        cases hb : extentOfPolygons rows with
        | error err => rw [hb] at hok; cases hok
        | ok b => rw [hb] at hok; exact ⟨b.1, b.2, hok⟩
    | points rows =>
        rw [hg] at hok
        replace hok : ((extentOfPoints rows).bind fun b =>
            computeExtentInCoordinateSystem e cs b.1 b.2) = Except.ok res := hok
        cases hb : extentOfPoints rows with
        | error err => rw [hb] at hok; cases hok
        | ok b => rw [hb] at hok; exact ⟨b.1, b.2, hok⟩
    | rasterSingle => rw [hg] at hok; cases hok
    | rasterMulti => rw [hg] at hok; cases hok
  · rw [if_neg hmem] at hok
    cases hok

/-- Reduction of the per-element `get_extent` when the coordinate system is
registered and the element is a single-scale raster. -/
theorem getExtentElement_raster_single {d : ℕ} (e : Element d) (cs : String)
    (hmem : cs ∈ coordinateSystems e) (hg : e.geom = Geometry.rasterSingle) :
    getExtentElement e cs = Except.error ExtentError.unsupportedElementKind := by
  unfold getExtentElement checkElementHasCoordinateSystem
  rw [if_pos hmem, hg]
  rfl

/-- Reduction of the per-element `get_extent` when the coordinate system is
registered and the element is a multiscale raster. -/
theorem getExtentElement_raster_multi {d : ℕ} (e : Element d) (cs : String)
    (hmem : cs ∈ coordinateSystems e) (hg : e.geom = Geometry.rasterMulti) :
    getExtentElement e cs = Except.error ExtentError.unsupportedElementKind := by
  unfold getExtentElement checkElementHasCoordinateSystem
  rw [if_pos hmem, hg]
  rfl

/-- C1: for every element, registered target coordinate system and intrinsic
bounding box, the extent in the target system is the componentwise min/max over
the images of all 2^D corners of the intrinsic box under the registered
transformation (the result bounds every transformed corner and attains the
bound on each axis, and carries the element's axis names); on the spec's 90°
rotation of the box (0,0)–(2,1) this yields the bounding box (−1,0)–(0,2) of
the rotated corners, which is not the pair obtained by transforming only the
min point and the max point. -/
theorem C1_corner_transform_extent :
    (∀ (d : ℕ) (e : Element d) (cs : String) (t : Transformation d)
        (mn mx : Fin d → ℚ) (res : (Fin d → ℚ) × (Fin d → ℚ) × (Fin d → String)),
        getTransformation e cs = some t →
        computeExtentInCoordinateSystem e cs mn mx = Except.ok res →
        res.2.2 = e.axes
          ∧ (∀ (c : Fin d → Bool) (i : Fin d),
              res.1 i ≤ Transformation.transformPoint t (corner mn mx c) i
                ∧ Transformation.transformPoint t (corner mn mx c) i ≤ res.2.1 i)
          ∧ (∀ i, ∃ c : Fin d → Bool,
              res.1 i = Transformation.transformPoint t (corner mn mx c) i)
          ∧ (∀ i, ∃ c : Fin d → Bool,
              res.2.1 i = Transformation.transformPoint t (corner mn mx c) i))
      ∧ computeExtentInCoordinateSystem rotElement "global" ![0, 0] ![2, 1]
          = Except.ok (![-1, 0], ![0, 2], rotElement.axes)
      ∧ (Transformation.transformPoint rot90 ![0, 0],
          Transformation.transformPoint rot90 ![2, 1]) ≠ (![-1, 0], ![0, 2]) := by
  refine ⟨?_, ?_, ?_⟩
  · intro d e cs t mn mx res ht hok
    obtain ⟨q, qs, hmap, hres⟩ := computeExtent_ok_inv e cs mn mx t res ht hok
    subst hres
    refine ⟨rfl, ?_, ?_, ?_⟩
    · intro c i
      have hmem : Transformation.transformPoint t (corner mn mx c) ∈ q :: qs := by
        rw [← hmap]
        exact List.mem_map_of_mem _ (boundingBoxCorners_mem mn mx c)
      exact ⟨colMin_le_cons qs q _ hmem i, colMax_ge_cons qs q _ hmem i⟩
    · intro i
      obtain ⟨x, hxmem, hx⟩ := colMin_attain_cons qs q i
      rw [← hmap] at hxmem
      obtain ⟨cc, hcmem, hcx⟩ := List.mem_map.mp hxmem
      obtain ⟨c, _, hc⟩ := List.mem_map.mp hcmem
      exact ⟨c, by show colMin qs q i = _; rw [hx, ← hcx, ← hc]⟩
    · intro i
      obtain ⟨x, hxmem, hx⟩ := colMax_attain_cons qs q i
      rw [← hmap] at hxmem
      obtain ⟨cc, hcmem, hcx⟩ := List.mem_map.mp hxmem
      obtain ⟨c, _, hc⟩ := List.mem_map.mp hcmem
      exact ⟨c, by show colMax qs q i = _; rw [hx, ← hcx, ← hc]⟩
  · apply congrArg Except.ok
    refine Prod.ext ?_ (Prod.ext ?_ rfl) <;>
    · funext i
      fin_cases i <;>
        simp +decide [colMin, colMax, vecMin, vecMax, corner, rot90,
          Transformation.transformPoint, Matrix.mulVec, Matrix.dotProduct, Fin.sum_univ_two,
          Fin.cons, Fin.cases]
  · intro h
    have h0 := congrFun (congrArg Prod.fst h) 0
    simp [rot90, Transformation.transformPoint, Matrix.mulVec, Matrix.dotProduct,
      Fin.sum_univ_two] at h0

/-- C4: the intrinsic extent of a non-empty circle collection is, per axis,
min over circles of (center − radius) and max over circles of
(center + radius): the result bounds every circle and attains the bound; the
spec's example (circles at (0,0) and (10,0), radius 1) yields min (−1,−1),
max (11,1). -/
theorem C4_circles_extent :
    (∀ (d : ℕ) (rows : List ((Fin d → ℚ) × ℚ)) (mn mx : Fin d → ℚ),
        extentOfCircles rows = Except.ok (mn, mx) →
        (∀ r ∈ rows, ∀ i, mn i ≤ r.1 i - r.2 ∧ r.1 i + r.2 ≤ mx i)
          ∧ (∀ i, ∃ r ∈ rows, mn i = r.1 i - r.2)
          ∧ (∀ i, ∃ r ∈ rows, mx i = r.1 i + r.2))
      ∧ extentOfCircles exCircles = Except.ok (![-1, -1], ![11, 1]) := by
  constructor
  · intro d rows mn mx hok
    cases rows with
    | nil => cases hok
    | cons r rest =>
        rw [extentOfCircles] at hok
        injection hok with h
        rw [Prod.mk.injEq] at h
        obtain ⟨h1, h2⟩ := h
        subst h1
        subst h2
        refine ⟨?_, ?_, ?_⟩
        · intro r' hr' i
          constructor
          · refine colMin_le_cons _ _ (fun j => r'.1 j - r'.2) ?_ i
            rcases List.mem_cons.mp hr' with rfl | hmem
            · exact List.mem_cons_self _ _
            · exact List.mem_cons_of_mem _ (List.mem_map_of_mem _ hmem)
          · refine colMax_ge_cons _ _ (fun j => r'.1 j + r'.2) ?_ i
            rcases List.mem_cons.mp hr' with rfl | hmem
            · exact List.mem_cons_self _ _
            · exact List.mem_cons_of_mem _ (List.mem_map_of_mem _ hmem)
        · intro i
          obtain ⟨x, hxmem, hx⟩ := colMin_attain_cons
            (rest.map fun s => fun j => s.1 j - s.2) (fun j => r.1 j - r.2) i
          rcases List.mem_cons.mp hxmem with rfl | hmem
          · exact ⟨r, List.mem_cons_self _ _, hx⟩
          · obtain ⟨r', hr', hrx⟩ := List.mem_map.mp hmem
            exact ⟨r', List.mem_cons_of_mem _ hr', by rw [hx, ← hrx]⟩
        · intro i
          obtain ⟨x, hxmem, hx⟩ := colMax_attain_cons
            (rest.map fun s => fun j => s.1 j + s.2) (fun j => r.1 j + r.2) i
          rcases List.mem_cons.mp hxmem with rfl | hmem
          · exact ⟨r, List.mem_cons_self _ _, hx⟩
          · obtain ⟨r', hr', hrx⟩ := List.mem_map.mp hmem
            exact ⟨r', List.mem_cons_of_mem _ hr', by rw [hx, ← hrx]⟩
  · apply congrArg Except.ok
    refine Prod.ext ?_ ?_ <;>
    · funext i
      fin_cases i <;> simp +decide [colMin, colMax, vecMin, vecMax, exCircles] <;> norm_num

/-- C5: requesting the extent of a raster element (single-scale or multiscale)
never returns a bounding box: with the coordinate system registered it fails
with the explicit capability-gap error (`NotImplementedError`, the spec's
`UnsupportedElementKindError`), and otherwise with the missing-coordinate-system
error. -/
theorem C5_raster_extent_unsupported (d : ℕ) (e : Element d) (cs : String)
    (hraster : e.geom = Geometry.rasterSingle ∨ e.geom = Geometry.rasterMulti) :
    (∀ b, getExtentElement e cs ≠ Except.ok b)
      ∧ (cs ∈ coordinateSystems e →
          getExtentElement e cs = Except.error ExtentError.unsupportedElementKind)
      ∧ (cs ∉ coordinateSystems e →
          getExtentElement e cs = Except.error ExtentError.missingCoordinateSystem) := by
  have hmiss : cs ∉ coordinateSystems e →
      getExtentElement e cs = Except.error ExtentError.missingCoordinateSystem := by
    intro h
    unfold getExtentElement checkElementHasCoordinateSystem
    rw [if_neg h]
    rfl
  have hreg : cs ∈ coordinateSystems e →
      getExtentElement e cs = Except.error ExtentError.unsupportedElementKind := by
    intro h
    rcases hraster with hg | hg
    · exact getExtentElement_raster_single e cs h hg
    · exact getExtentElement_raster_multi e cs h hg
  refine ⟨?_, hreg, hmiss⟩
  intro b hok
  by_cases hmem : cs ∈ coordinateSystems e
  · rw [hreg hmem] at hok; cases hok
  · rw [hmiss hmem] at hok; cases hok

/-- C6: for a single element and a coordinate-system name with no registered
transformation on the element, the per-element extent computation fails with
the missing-coordinate-system error before any extent is computed, whatever the
element's geometry, and no bounding box is returned. -/
theorem C6_missing_coordinate_system (d : ℕ) (e : Element d) (cs : String)
    (h : cs ∉ coordinateSystems e) :
    getExtentElement e cs = Except.error ExtentError.missingCoordinateSystem := by
  unfold getExtentElement checkElementHasCoordinateSystem
  rw [if_neg h]
  rfl

theorem foldl_min_le_seed (xs : List ℚ) (x : ℚ) : xs.foldl min x ≤ x := by
  induction xs generalizing x with
  | nil => exact le_refl _
  | cons b bs ih => exact le_trans (ih (min x b)) (min_le_left _ _)

theorem foldl_min_le_mem (xs : List ℚ) (x y : ℚ) (hy : y ∈ xs) : xs.foldl min x ≤ y := by
  induction xs generalizing x with
  | nil => cases hy
  | cons b bs ih =>
      rcases List.mem_cons.mp hy with rfl | h
      · exact le_trans (foldl_min_le_seed bs (min x y)) (min_le_right _ _)
      · exact ih (min x b) h

theorem foldl_min_mem (xs : List ℚ) (x : ℚ) : xs.foldl min x = x ∨ xs.foldl min x ∈ xs := by
  induction xs generalizing x with
  | nil => exact Or.inl rfl
  | cons b bs ih =>
      rcases ih (min x b) with h | h
      · rcases min_choice x b with hm | hm
        · exact Or.inl (by rw [List.foldl_cons, h, hm])
        · exact Or.inr (List.mem_cons.mpr (Or.inl (by rw [List.foldl_cons, h, hm])))
      · exact Or.inr (List.mem_cons_of_mem _ h)

theorem listMin_le_mem (l : List ℚ) (y : ℚ) (hy : y ∈ l) : listMin l ≤ y := by
  cases l with
  | nil => cases hy
  | cons x xs =>
      rcases List.mem_cons.mp hy with rfl | h
      · exact foldl_min_le_seed xs y
      · exact foldl_min_le_mem xs x y h

theorem listMin_mem (l : List ℚ) (h : l ≠ []) : listMin l ∈ l := by
  cases l with
  | nil => exact absurd rfl h
  | cons x xs =>
      rcases foldl_min_mem xs x with h' | h'
      · exact List.mem_cons.mpr (Or.inl h')
      · exact List.mem_cons_of_mem _ h'

theorem foldl_max_ge_seed (xs : List ℚ) (x : ℚ) : x ≤ xs.foldl max x := by
  induction xs generalizing x with
  | nil => exact le_refl _
  | cons b bs ih => exact le_trans (le_max_left _ _) (ih (max x b))

theorem foldl_max_ge_mem (xs : List ℚ) (x y : ℚ) (hy : y ∈ xs) : y ≤ xs.foldl max x := by
  induction xs generalizing x with
  | nil => cases hy
  | cons b bs ih =>
      rcases List.mem_cons.mp hy with rfl | h
      · exact le_trans (le_max_right _ _) (foldl_max_ge_seed bs (max x y))
      · exact ih (max x b) h

theorem foldl_max_mem (xs : List ℚ) (x : ℚ) : xs.foldl max x = x ∨ xs.foldl max x ∈ xs := by
  induction xs generalizing x with
  | nil => exact Or.inl rfl
  | cons b bs ih =>
      rcases ih (max x b) with h | h
      · rcases max_choice x b with hm | hm
        · exact Or.inl (by rw [List.foldl_cons, h, hm])
        · exact Or.inr (List.mem_cons.mpr (Or.inl (by rw [List.foldl_cons, h, hm])))
      · exact Or.inr (List.mem_cons_of_mem _ h)

theorem listMax_ge_mem (l : List ℚ) (y : ℚ) (hy : y ∈ l) : y ≤ listMax l := by
  cases l with
  | nil => cases hy
  | cons x xs =>
      rcases List.mem_cons.mp hy with rfl | h
      · exact foldl_max_ge_seed xs y
      · exact foldl_max_ge_mem xs x y h

theorem listMax_mem (l : List ℚ) (h : l ≠ []) : listMax l ∈ l := by
  cases l with
  | nil => exact absurd rfl h
  | cons x xs =>
      rcases foldl_max_mem xs x with h' | h'
      · exact List.mem_cons.mpr (Or.inl h')
      · exact List.mem_cons_of_mem _ h'

theorem lookupAxis_insert_eq (acc : List (String × List ℚ × List ℚ)) (ax : String) (mn mx : ℚ) :
    lookupAxis (insertAxisEntry acc ax mn mx) ax =
      some (((lookupAxis acc ax).getD ([], [])).1 ++ [mn],
            ((lookupAxis acc ax).getD ([], [])).2 ++ [mx]) := by
  induction acc with
  | nil => simp [insertAxisEntry, lookupAxis]
  | cons p rest ih =>
      obtain ⟨a, ms, xs⟩ := p
      by_cases h : a = ax
      · subst h
        simp [insertAxisEntry, lookupAxis]
      · simp only [insertAxisEntry, lookupAxis, if_neg h]
        exact ih

theorem lookupAxis_insert_ne (acc : List (String × List ℚ × List ℚ)) (ax ax' : String)
    (mn mx : ℚ) (h : ax' ≠ ax) :
    lookupAxis (insertAxisEntry acc ax mn mx) ax' = lookupAxis acc ax' := by
  induction acc with
  | nil => simp [insertAxisEntry, lookupAxis, Ne.symm h]
  | cons p rest ih =>
      obtain ⟨a, ms, xs⟩ := p
      by_cases ha : a = ax
      · subst ha
        simp [insertAxisEntry, lookupAxis, Ne.symm h]
      · simp only [insertAxisEntry, lookupAxis, if_neg ha]
        by_cases ha' : a = ax'
        · simp [ha']
        · simp only [if_neg ha']
          exact ih

theorem keys_insertAxisEntry (acc : List (String × List ℚ × List ℚ)) (ax : String) (mn mx : ℚ) :
    (insertAxisEntry acc ax mn mx).map Prod.fst =
      if ax ∈ acc.map Prod.fst then acc.map Prod.fst else acc.map Prod.fst ++ [ax] := by
  induction acc with
  | nil => simp [insertAxisEntry]
  | cons p rest ih =>
      obtain ⟨a, ms, xs⟩ := p
      by_cases h : a = ax
      · subst h
        simp [insertAxisEntry, lookupAxis]
      · simp only [insertAxisEntry, if_neg h, List.map_cons, ih]
        by_cases hmem : ax ∈ rest.map Prod.fst
        · simp [hmem, Ne.symm h]
        · simp [hmem, Ne.symm h]

theorem nodup_insertAxisEntry (acc : List (String × List ℚ × List ℚ)) (ax : String) (mn mx : ℚ)
    (h : (acc.map Prod.fst).Nodup) :
    ((insertAxisEntry acc ax mn mx).map Prod.fst).Nodup := by
  rw [keys_insertAxisEntry]
  by_cases hmem : ax ∈ acc.map Prod.fst
  · rw [if_pos hmem]; exact h
  · rw [if_neg hmem]
    refine List.Nodup.append h (List.nodup_singleton ax) ?_
    intro a ha hax
    rcases List.mem_singleton.mp hax with rfl
    exact hmem ha

theorem lookupAxis_eq_some_of_mem (acc : List (String × List ℚ × List ℚ)) (a : String)
    (v : List ℚ × List ℚ) (hmem : (a, v) ∈ acc) (hnd : (acc.map Prod.fst).Nodup) :
    lookupAxis acc a = some v := by
  induction acc with
  | nil => cases hmem
  | cons p rest ih =>
      obtain ⟨b, ms, xs⟩ := p
      rcases List.mem_cons.mp hmem with heq | hmem'
      · injection heq with h1 h2
        subst h1
        simp [lookupAxis, h2.symm]
      · have hb : b ≠ a := by
          intro hba
          subst hba
          exact (List.nodup_cons.mp hnd).1 (List.mem_map.mpr ⟨(b, v), hmem', rfl⟩)
        simp only [lookupAxis, if_neg hb]
        exact ih hmem' (List.nodup_cons.mp hnd).2

theorem mem_of_lookupAxis_eq_some (acc : List (String × List ℚ × List ℚ)) (a : String)
    (v : List ℚ × List ℚ) (h : lookupAxis acc a = some v) : (a, v) ∈ acc := by
  induction acc with
  | nil => cases h
  | cons p rest ih =>
      obtain ⟨b, ms, xs⟩ := p
      by_cases hb : b = a
      · subst hb
        rw [lookupAxis, if_pos rfl] at h
        injection h with h'
        exact List.mem_cons.mpr (Or.inl (by rw [← h']))
      · simp only [lookupAxis, if_neg hb] at h
        exact List.mem_cons_of_mem _ (ih h)

theorem groupInto_append (acc : List (String × List ℚ × List ℚ))
    (l1 l2 : List (String × ℚ × ℚ)) :
    groupInto acc (l1 ++ l2) = groupInto (groupInto acc l1) l2 := by
  induction l1 generalizing acc with
  | nil => rfl
  | cons c rest ih =>
      simp only [List.cons_append, groupInto]
      exact ih _

theorem groupInto_finRange {d : ℕ} (acc : List (String × List ℚ × List ℚ))
    (axes : Fin d → String) (mn mx : Fin d → ℚ) :
    groupInto acc ((List.finRange d).map fun i => (axes i, mn i, mx i))
      = insertElementAxes acc axes mn mx := by
  unfold insertElementAxes
  generalize List.finRange d = l
  induction l generalizing acc with
  | nil => rfl
  | cons i rest ih =>
      simp only [List.map_cons, groupInto, List.foldl_cons]
      exact ih _

theorem nodup_groupInto (flat : List (String × ℚ × ℚ)) (acc : List (String × List ℚ × List ℚ))
    (h : (acc.map Prod.fst).Nodup) : ((groupInto acc flat).map Prod.fst).Nodup := by
  induction flat generalizing acc with
  | nil => exact h
  | cons c rest ih => exact ih _ (nodup_insertAxisEntry acc c.1 c.2.1 c.2.2 h)

theorem axisMins_cons (c : String × ℚ × ℚ) (rest : List (String × ℚ × ℚ)) (ax : String) :
    axisMins (c :: rest) ax = if c.1 = ax then c.2.1 :: axisMins rest ax else axisMins rest ax := by
  by_cases h : c.1 = ax
  · simp [axisMins, h]
  · simp [axisMins, h]

theorem axisMaxs_cons (c : String × ℚ × ℚ) (rest : List (String × ℚ × ℚ)) (ax : String) :
    axisMaxs (c :: rest) ax = if c.1 = ax then c.2.2 :: axisMaxs rest ax else axisMaxs rest ax := by
  by_cases h : c.1 = ax
  · simp [axisMaxs, h]
  · simp [axisMaxs, h]

theorem lookupAxis_groupInto (flat : List (String × ℚ × ℚ))
    (acc : List (String × List ℚ × List ℚ)) (ax : String) :
    lookupAxis (groupInto acc flat) ax =
      match lookupAxis acc ax with
      | some v => some (v.1 ++ axisMins flat ax, v.2 ++ axisMaxs flat ax)
      | none =>
          if axisMins flat ax = [] then none
          else some (axisMins flat ax, axisMaxs flat ax) := by
  induction flat generalizing acc with
  | nil =>
      cases h : lookupAxis acc ax with
      | none => simp [groupInto, axisMins, h]
      | some v => simp [groupInto, axisMins, axisMaxs, h]
  | cons c rest ih =>
      simp only [groupInto]
      rw [ih (insertAxisEntry acc c.1 c.2.1 c.2.2)]
      by_cases hax : c.1 = ax
      · subst hax
        rw [lookupAxis_insert_eq, axisMins_cons, axisMaxs_cons, if_pos rfl, if_pos rfl]
        cases h : lookupAxis acc c.1 with
        | none => simp [h]
        | some v => simp [h]
      · rw [lookupAxis_insert_ne acc c.1 ax c.2.1 c.2.2 (Ne.symm hax),
          axisMins_cons, axisMaxs_cons, if_neg hax, if_neg hax]

theorem collectExtents_eq_groupInto (elems : List SigmaElement) (cs : String)
    (acc : List (String × List ℚ × List ℚ)) :
    collectExtents elems cs acc = (contributions elems cs).map fun flat => groupInto acc flat := by
  induction elems generalizing acc with
  | nil => rfl
  | cons se rest ih =>
      obtain ⟨d, e⟩ := se
      by_cases hmem : cs ∈ coordinateSystems e
      · rw [collectExtents, contributions, if_pos hmem, if_pos hmem]
        cases hge : getExtentElement e cs with
        | error err => rfl
        | ok r =>
            show collectExtents rest cs (insertElementAxes acc r.2.2 r.1 r.2.1)
              = Except.map (fun flat => groupInto acc flat)
                  (match contributions rest cs with
                    | Except.error err => Except.error err
                    | Except.ok f =>
                        Except.ok
                          (((List.finRange d).map fun i => (r.2.2 i, r.1 i, r.2.1 i)) ++ f))
            rw [ih (insertElementAxes acc r.2.2 r.1 r.2.1)]
            cases hc : contributions rest cs with
            | error err => rfl
            | ok f =>
                show Except.ok (groupInto (insertElementAxes acc r.2.2 r.1 r.2.1) f)
                  = Except.ok (groupInto acc
                      (((List.finRange d).map fun i => (r.2.2 i, r.1 i, r.2.1 i)) ++ f))
                rw [groupInto_append, groupInto_finRange]
      · rw [collectExtents, contributions, if_neg hmem, if_neg hmem]
        exact ih acc

theorem collectExtents_skip (pre post : List SigmaElement) (d : ℕ) (e : Element d)
    (cs : String) (acc : List (String × List ℚ × List ℚ))
    (h : cs ∉ coordinateSystems e) :
    collectExtents (pre ++ ⟨d, e⟩ :: post) cs acc = collectExtents (pre ++ post) cs acc := by
  induction pre generalizing acc with
  | nil =>
      rw [List.nil_append, List.nil_append, collectExtents, if_neg h]
  | cons a rest ih =>
      obtain ⟨da, ea⟩ := a
      rw [List.cons_append, List.cons_append, collectExtents, collectExtents]
      by_cases hmem : cs ∈ coordinateSystems ea
      · rw [if_pos hmem, if_pos hmem]
        cases hge : getExtentElement ea cs with
        | error err => rfl
        | ok r => exact ih _
      · rw [if_neg hmem, if_neg hmem]
        exact ih acc

theorem getExtentElement_min_le_max {d : ℕ} (e : Element d) (cs : String)
    (res : (Fin d → ℚ) × (Fin d → ℚ) × (Fin d → String))
    (hok : getExtentElement e cs = Except.ok res) (i : Fin d) : res.1 i ≤ res.2.1 i := by
  obtain ⟨mn, mx, h⟩ := getExtentElement_ok_inv e cs res hok
  exact computeExtent_min_le_max e cs mn mx res h i

theorem contributions_le (elems : List SigmaElement) (cs : String)
    (flat : List (String × ℚ × ℚ)) (h : contributions elems cs = Except.ok flat) :
    ∀ c ∈ flat, c.2.1 ≤ c.2.2 := by
  induction elems generalizing flat with
  | nil =>
      replace h : (Except.ok [] : Except ExtentError (List (String × ℚ × ℚ)))
        = Except.ok flat := h
      injection h with h'
      subst h'
      intro c hc
      cases hc
  | cons se rest ih =>
      obtain ⟨d, e⟩ := se
      rw [contributions] at h
      by_cases hmem : cs ∈ coordinateSystems e
      · rw [if_pos hmem] at h
        cases hge : getExtentElement e cs with
        | error err =>
            rw [hge] at h
            replace h : (Except.error err : Except ExtentError (List (String × ℚ × ℚ)))
              = Except.ok flat := h
            cases h
        | ok r =>
            rw [hge] at h
            replace h : (match contributions rest cs with
                | Except.error err => Except.error err
                | Except.ok f =>
                    Except.ok
                      (((List.finRange d).map fun i => (r.2.2 i, r.1 i, r.2.1 i)) ++ f))
              = Except.ok flat := h
            cases hc : contributions rest cs with
            | error err =>
                rw [hc] at h
                cases h
            | ok f =>
                rw [hc] at h
                injection h with h'
                subst h'
                intro c hcmem
                rcases List.mem_append.mp hcmem with hleft | hright
                · obtain ⟨i, _, hi⟩ := List.mem_map.mp hleft
                  rw [← hi]
                  exact getExtentElement_min_le_max e cs r hge i
                · exact ih f hc c hright
      · rw [if_neg hmem] at h
        exact ih flat h

theorem collectExtents_all_skip (elems : List SigmaElement) (cs : String)
    (acc : List (String × List ℚ × List ℚ))
    (h : ∀ se ∈ elems, cs ∉ coordinateSystems se.2) :
    collectExtents elems cs acc = Except.ok acc := by
  induction elems with
  | nil => rfl
  | cons se rest ih =>
      obtain ⟨d, e⟩ := se
      rw [collectExtents, if_neg (h ⟨d, e⟩ (List.mem_cons_self _ _))]
      exact ih fun se hse => h se (List.mem_cons_of_mem _ hse)

theorem getExtentSpatialData_ok_inv (elems : List SigmaElement) (cs : String)
    (res : List (String × ℚ × ℚ)) (h : getExtentSpatialData elems cs = Except.ok res) :
    ∃ acc, collectExtents elems cs [] = Except.ok acc ∧ acc ≠ []
      ∧ res = acc.map fun p => (p.1, listMin p.2.1, listMax p.2.2) := by
  unfold getExtentSpatialData at h
  cases hc : collectExtents elems cs [] with
  | error err =>
      rw [hc] at h
      replace h : (Except.error err : Except ExtentError (List (String × ℚ × ℚ)))
        = Except.ok res := h
      cases h
  | ok acc =>
      rw [hc] at h
      cases acc with
      | nil =>
          replace h : (Except.error ExtentError.noElementsInCoordinateSystem :
              Except ExtentError (List (String × ℚ × ℚ))) = Except.ok res := h
          cases h
      | cons a rest =>
          replace h : Except.ok ((a :: rest).map fun p => (p.1, listMin p.2.1, listMax p.2.2))
            = Except.ok res := h
          injection h with h'
          exact ⟨a :: rest, rfl, by simp, h'.symm⟩

/-- C2: the dataset-level extent for a coordinate system S is the union over
exactly the elements registered to S: an element without an entry for S is
skipped without error and contributes nothing (removing it changes nothing),
and each axis entry of the result has min (max) equal to the minimum (maximum)
of the per-element mins (maxes) contributed for that axis name — a bound over
all contributions for the name, attained at one, with every contributed axis
name present in the result. -/
theorem C2_dataset_union :
    (∀ (pre post : List SigmaElement) (d : ℕ) (e : Element d) (cs : String),
        cs ∉ coordinateSystems e →
        getExtentSpatialData (pre ++ ⟨d, e⟩ :: post) cs = getExtentSpatialData (pre ++ post) cs)
      ∧ (∀ (elems : List SigmaElement) (cs : String) (res flat : List (String × ℚ × ℚ)),
          getExtentSpatialData elems cs = Except.ok res →
          contributions elems cs = Except.ok flat →
          (∀ p ∈ res,
            (∀ c ∈ flat, c.1 = p.1 → p.2.1 ≤ c.2.1 ∧ c.2.2 ≤ p.2.2)
              ∧ (∃ c ∈ flat, c.1 = p.1 ∧ c.2.1 = p.2.1)
              ∧ (∃ c ∈ flat, c.1 = p.1 ∧ c.2.2 = p.2.2))
            ∧ (∀ c ∈ flat, ∃ p ∈ res, p.1 = c.1)) := by
  constructor
  · intro pre post d e cs h
    unfold getExtentSpatialData
    rw [collectExtents_skip pre post d e cs [] h]
  · intro elems cs res flat hok hflat
    obtain ⟨acc, hcol, hne, hres⟩ := getExtentSpatialData_ok_inv elems cs res hok
    rw [collectExtents_eq_groupInto, hflat] at hcol
    replace hcol : Except.ok (groupInto [] flat) = Except.ok acc := hcol
    injection hcol with hacc
    subst hacc
    subst hres
    have hnd : ((groupInto [] flat).map Prod.fst).Nodup :=
      nodup_groupInto flat [] List.nodup_nil
    constructor
    · intro p hp
      obtain ⟨⟨a, ms, xs⟩, hmemacc, hpe⟩ := List.mem_map.mp hp
      subst hpe
      have hlook : lookupAxis (groupInto [] flat) a = some (ms, xs) :=
        lookupAxis_eq_some_of_mem _ a (ms, xs) hmemacc hnd
      rw [lookupAxis_groupInto flat [] a] at hlook
      by_cases hemp : axisMins flat a = []
      · rw [if_pos hemp] at hlook; cases hlook
      · rw [if_neg hemp] at hlook
        injection hlook with hpair
        injection hpair with hms' hxs'
        have hms : ms = axisMins flat a := hms'.symm
        have hxs : xs = axisMaxs flat a := hxs'.symm
        refine ⟨?_, ?_, ?_⟩
        · intro c hc hca
          constructor
          · show listMin ms ≤ c.2.1
            refine listMin_le_mem ms c.2.1 ?_
            rw [hms]
            exact List.mem_map.mpr ⟨c,
              List.mem_filter.mpr ⟨hc, beq_iff_eq.mpr hca⟩, rfl⟩
          · show c.2.2 ≤ listMax xs
            refine listMax_ge_mem xs c.2.2 ?_
            rw [hxs]
            exact List.mem_map.mpr ⟨c,
              List.mem_filter.mpr ⟨hc, beq_iff_eq.mpr hca⟩, rfl⟩
        · have hmm := listMin_mem ms (by rw [hms]; exact hemp)
          rw [hms] at hmm
          obtain ⟨c, hcf, hcv⟩ := List.mem_map.mp hmm
          have hcand := List.mem_filter.mp hcf
          exact ⟨c, hcand.1, beq_iff_eq.mp hcand.2, by rw [hcv, ← hms]⟩
        · have hemp' : axisMaxs flat a ≠ [] := by
            intro hx
            apply hemp
            unfold axisMins
            unfold axisMaxs at hx
            rw [List.map_eq_nil_iff] at hx ⊢
            exact hx
          have hmm := listMax_mem xs (by rw [hxs]; exact hemp')
          rw [hxs] at hmm
          obtain ⟨c, hcf, hcv⟩ := List.mem_map.mp hmm
          have hcand := List.mem_filter.mp hcf
          exact ⟨c, hcand.1, beq_iff_eq.mp hcand.2, by rw [hcv, ← hxs]⟩
    · intro c hc
      have hne' : axisMins flat c.1 ≠ [] := by
        intro hx
        have : c.2.1 ∈ axisMins flat c.1 :=
          List.mem_map.mpr ⟨c, List.mem_filter.mpr ⟨hc, beq_iff_eq.mpr rfl⟩, rfl⟩
        rw [hx] at this
        cases this
      have hlook : lookupAxis (groupInto [] flat) c.1
          = some (axisMins flat c.1, axisMaxs flat c.1) := by
        rw [lookupAxis_groupInto flat [] c.1]
        show (if axisMins flat c.1 = [] then none else _) = _
        rw [if_neg hne']
      have hmem := mem_of_lookupAxis_eq_some _ _ _ hlook
      exact ⟨(c.1, listMin (axisMins flat c.1), listMax (axisMaxs flat c.1)),
        List.mem_map.mpr ⟨(c.1, axisMins flat c.1, axisMaxs flat c.1), hmem, rfl⟩, rfl⟩

/-- C3: when zero elements contribute any axis to the dataset-level union for
S — in particular when no element is registered to S — the computation fails
with the `NoElementsInCoordinateSystemError` condition, and a successful result
is never an empty bounding box. -/
theorem C3_no_elements_error :
    (∀ (elems : List SigmaElement) (cs : String),
        (∀ se ∈ elems, cs ∉ coordinateSystems se.2) →
        getExtentSpatialData elems cs
          = Except.error ExtentError.noElementsInCoordinateSystem)
      ∧ (∀ (elems : List SigmaElement) (cs : String) (res : List (String × ℚ × ℚ)),
          getExtentSpatialData elems cs = Except.ok res → res ≠ []) := by
  constructor
  · intro elems cs h
    unfold getExtentSpatialData
    rw [collectExtents_all_skip elems cs [] h]
  · intro elems cs res hok
    obtain ⟨acc, _, hne, hres⟩ := getExtentSpatialData_ok_inv elems cs res hok
    subst hres
    intro hmap
    exact hne (List.map_eq_nil_iff.mp hmap)

/-- C7: every bounding box returned by an extent computation (per-element in a
target coordinate system, or dataset-level union) has min vector, max vector
and axis-name tuple of equal length, and min ≤ max on every component. -/
theorem C7_bounding_box_invariants :
    (∀ (d : ℕ) (e : Element d) (cs : String)
        (res : (Fin d → ℚ) × (Fin d → ℚ) × (Fin d → String)),
        getExtentElement e cs = Except.ok res →
        (List.ofFn res.1).length = (List.ofFn res.2.1).length
          ∧ (List.ofFn res.2.1).length = (List.ofFn res.2.2).length
          ∧ ∀ i, res.1 i ≤ res.2.1 i)
      ∧ (∀ (elems : List SigmaElement) (cs : String) (res : List (String × ℚ × ℚ)),
          getExtentSpatialData elems cs = Except.ok res →
          ∀ p ∈ res, p.2.1 ≤ p.2.2) := by
  constructor
  · intro d e cs res hok
    refine ⟨by simp, by simp, fun i => getExtentElement_min_le_max e cs res hok i⟩
  · intro elems cs res hok p hp
    obtain ⟨acc, hcol, hne, hres⟩ := getExtentSpatialData_ok_inv elems cs res hok
    rw [collectExtents_eq_groupInto] at hcol
    cases hflat : contributions elems cs with
    | error err =>
        rw [hflat] at hcol
        replace hcol : (Except.error err : Except ExtentError (List (String × List ℚ × List ℚ)))
          = Except.ok acc := hcol
        cases hcol
    | ok flat =>
        rw [hflat] at hcol
        replace hcol : Except.ok (groupInto [] flat) = Except.ok acc := hcol
        injection hcol with hacc
        subst hacc
        subst hres
        obtain ⟨⟨a, ms, xs⟩, hmemacc, hpe⟩ := List.mem_map.mp hp
        subst hpe
        have hnd : ((groupInto [] flat).map Prod.fst).Nodup :=
          nodup_groupInto flat [] List.nodup_nil
        have hlook : lookupAxis (groupInto [] flat) a = some (ms, xs) :=
          lookupAxis_eq_some_of_mem _ a (ms, xs) hmemacc hnd
        rw [lookupAxis_groupInto flat [] a] at hlook
        by_cases hemp : axisMins flat a = []
        · rw [if_pos hemp] at hlook; cases hlook
        · rw [if_neg hemp] at hlook
          injection hlook with hpair
          injection hpair with hms' hxs'
          have hms : ms = axisMins flat a := hms'.symm
          have hxs : xs = axisMaxs flat a := hxs'.symm
          show listMin ms ≤ listMax xs
          have hmm := listMin_mem ms (by rw [hms]; exact hemp)
          rw [hms] at hmm
          obtain ⟨c, hcf, hcv⟩ := List.mem_map.mp hmm
          have hcand := List.mem_filter.mp hcf
          have hc22 : c.2.2 ∈ xs := by
            rw [hxs]
            exact List.mem_map.mpr ⟨c, hcf, rfl⟩
          calc listMin ms = c.2.1 := by rw [← hms] at hcv; exact hcv.symm
            _ ≤ c.2.2 := contributions_le elems cs flat hflat c hcand.1
            _ ≤ listMax xs := listMax_ge_mem xs c.2.2 hc22

/-- C9: for every invertible transformation `t` (exact rational arithmetic
standing in for the float tolerance) and every point array `x`,
`t.inverse().transform_points(t.transform_points(x)) = x`; and inversion of a
degenerate transformation (zero-determinant affine, zero scale factor) or of a
Sequence containing a non-invertible child fails with the `NotInvertibleError`
outcome (`none`). -/
theorem C9_inverse_correctness :
    (∀ (d : ℕ) (t t' : Transformation d), Transformation.WellFormed t →
        Transformation.inverse t = some t' → ∀ x : List (Fin d → ℚ),
          Transformation.transformPoints t' (Transformation.transformPoints t x) = x)
      ∧ (∀ (d : ℕ) (s : Fin d → ℚ), (∃ i, s i = 0) →
          Transformation.inverse (Transformation.scale s) = none)
      ∧ (∀ (d : ℕ) (m : Matrix (Fin (d + 1)) (Fin (d + 1)) ℚ), m.det = 0 →
          Transformation.inverse (Transformation.affine m) = none)
      ∧ (∀ (d : ℕ) (ts : List (Transformation d)) (t : Transformation d), t ∈ ts →
          Transformation.inverse t = none →
          Transformation.inverse (Transformation.sequence ts) = none) := by
  refine ⟨?_, ?_, ?_, ?_⟩
  · intro d t t' hw hi x
    unfold Transformation.transformPoints
    rw [List.map_map]
    have : ∀ p : Fin d → ℚ,
        Transformation.transformPoint t' (Transformation.transformPoint t p) = p :=
      Transformation.transformPoint_inverse t t' hw hi
    calc x.map (Transformation.transformPoint t' ∘ Transformation.transformPoint t)
        = x.map id := List.map_congr_left fun p _ => this p
      _ = x := List.map_id x
  · intro d s hzero
    rw [Transformation.inverse, dif_neg]
    intro hall
    obtain ⟨i, hi⟩ := hzero
    exact hall i hi
  · intro d m hdet
    rw [Transformation.inverse, dif_pos]
    rw [Transformation.detQ_eq_det]
    exact hdet
  · intro d ts t hmem hnone
    rw [Transformation.inverse, Transformation.inverseList_none_of_mem ts t hmem hnone]
    rfl

/-- C8: for every transformation variant, including arbitrarily nested Sequences,
`from_dict(to_dict(t)).to_dict()` equals `to_dict(t)`, and the same round-trip
equality holds for the JSON form `from_json(to_json(t)).to_json() == to_json(t)`. -/
theorem C8_serialization_roundtrip (d : ℕ) (t : Transformation d) :
    (Transformation.fromDict d (Transformation.toDict t)).map Transformation.toDict
        = some (Transformation.toDict t)
      ∧ (Transformation.fromJson d (Transformation.toJson t)).map Transformation.toJson
        = some (Transformation.toJson t) := by
  refine ⟨?_, ?_⟩ <;>
    simp [Transformation.fromJson, Transformation.toJson, Transformation.fromDict_toDict]


/-- Witness for C1 at the spec's concrete rotation example: the returned
minimum on the first axis is attained at a transformed corner. -/
theorem C1_corner_transform_extent_witness :
    ∃ c : Fin 2 → Bool,
      (![-1, 0] : Fin 2 → ℚ) 0
        = Transformation.transformPoint rot90 (corner ![0, 0] ![2, 1] c) 0 :=
  (C1_corner_transform_extent.1 2 rotElement "global" rot90 ![0, 0] ![2, 1]
    (![-1, 0], ![0, 2], rotElement.axes) rfl C1_corner_transform_extent.2.1).2.2.1 0

/-- Witness for C4 at the spec's concrete circle example. -/
theorem C4_circles_extent_witness :
    ∀ r ∈ exCircles, ∀ i, (![-1, -1] : Fin 2 → ℚ) i ≤ r.1 i - r.2
      ∧ r.1 i + r.2 ≤ (![11, 1] : Fin 2 → ℚ) i :=
  (C4_circles_extent.1 2 exCircles ![-1, -1] ![11, 1] C4_circles_extent.2).1

/-- Witness for C5 at a concrete registered single-scale raster. -/
theorem C5_raster_extent_unsupported_witness :
    getExtentElement rasterElement "global" = Except.error ExtentError.unsupportedElementKind :=
  (C5_raster_extent_unsupported 2 rasterElement "global" (Or.inl rfl)).2.1
    (by simp [coordinateSystems, rasterElement])

/-- Witness for C6 at a concrete element lacking the requested system. -/
theorem C6_missing_coordinate_system_witness :
    getExtentElement rotElement "other" = Except.error ExtentError.missingCoordinateSystem :=
  C6_missing_coordinate_system 2 rotElement "other" (by simp [coordinateSystems, rotElement])

/-- Witness for C9 at a concrete invertible scale and a concrete degenerate
scale. -/
theorem C9_inverse_correctness_witness :
    Transformation.transformPoints (Transformation.scale fun i => (exScaleVec i)⁻¹)
        (Transformation.transformPoints (Transformation.scale exScaleVec) [![1, 3]]) = [![1, 3]]
      ∧ Transformation.inverse (Transformation.scale (![0, 1] : Fin 2 → ℚ)) = none := by
  constructor
  · have hnz : ∀ i : Fin 2, exScaleVec i ≠ 0 := by
      intro i; fin_cases i <;> norm_num [exScaleVec]
    exact C9_inverse_correctness.1 2 _ _ (by simp [Transformation.WellFormed])
      (by rw [Transformation.inverse, dif_pos hnz]) [![1, 3]]
  · exact C9_inverse_correctness.2.1 2 _ ⟨0, rfl⟩


/-- Witness for C2: a concrete element lacking `"global"` is skipped from the
dataset union. -/
theorem C2_dataset_union_witness :
    getExtentSpatialData [⟨2, otherElement⟩, ⟨2, rotElement⟩] "global"
      = getExtentSpatialData [⟨2, rotElement⟩] "global" :=
  C2_dataset_union.1 [] [⟨2, rotElement⟩] 2 otherElement "global"
    (by simp [coordinateSystems, otherElement])

/-- Witness for C3: a concrete dataset with no element in `"other"`. -/
theorem C3_no_elements_error_witness :
    getExtentSpatialData [⟨2, rotElement⟩] "other"
      = Except.error ExtentError.noElementsInCoordinateSystem :=
  C3_no_elements_error.1 [⟨2, rotElement⟩] "other" (by
    intro se hse
    rcases List.mem_singleton.mp hse with rfl
    simp [coordinateSystems, rotElement])

/-- Witness for C7 at a concrete element whose extent succeeds. -/
theorem C7_bounding_box_invariants_witness :
    ∀ i : Fin 2, (![0, 0] : Fin 2 → ℚ) i ≤ (![0, 0] : Fin 2 → ℚ) i := by
  have hok : getExtentElement rotElement "global"
      = Except.ok (![0, 0], ![0, 0], rotElement.axes) := by
    unfold getExtentElement checkElementHasCoordinateSystem
    rw [if_pos (by simp [coordinateSystems, rotElement])]
    show computeExtentInCoordinateSystem rotElement "global" (fun _ => 0) (fun _ => 0) = _
    apply congrArg Except.ok
    refine Prod.ext ?_ (Prod.ext ?_ rfl) <;>
    · funext i
      fin_cases i <;> simp +decide [colMin, colMax, vecMin, vecMax, corner, rot90,
        Transformation.transformPoint, Matrix.mulVec, Matrix.dotProduct, Fin.sum_univ_two,
        Fin.cons, Fin.cases, rotElement]
  exact (C7_bounding_box_invariants.1 2 rotElement "global"
    (![0, 0], ![0, 0], rotElement.axes) hok).2.2


namespace Unpad

theorem set_getD_self (l : List ℕ) (a : ℕ) : l.set a (l.getD a 0) = l := by
  induction l generalizing a with
  | nil => rfl
  | cons x xs ih =>
      cases a with
      | zero => rfl
      | succ n =>
          show x :: xs.set n (xs.getD n 0) = x :: xs
          rw [ih]

theorem mem_nonZeroIdx (shape : List ℕ) (data : List ℕ → ℚ) (a i : ℕ) :
    i ∈ nonZeroIdx shape data a ↔ i < shape.getD a 0 ∧ atol < |axisSum shape data a i| := by
  simp [nonZeroIdx, List.mem_filter, List.mem_range]

theorem nonZeroIdx_pairwise (shape : List ℕ) (data : List ℕ → ℚ) (a : ℕ) :
    (nonZeroIdx shape data a).Pairwise (· < ·) :=
  List.Pairwise.filter _ (List.pairwise_lt_range _)

theorem sorted_head_le {i0 : ℕ} {l : List ℕ} (h : (i0 :: l).Pairwise (· < ·))
    (x : ℕ) (hx : x ∈ i0 :: l) : i0 ≤ x := by
  rcases List.mem_cons.mp hx with rfl | hx'
  · exact le_refl x
  · exact le_of_lt ((List.pairwise_cons.mp h).1 x hx')

theorem sorted_le_getLast :
    ∀ (l : List ℕ), l.Pairwise (· < ·) → ∀ (x : ℕ), x ∈ l → ∀ (hne : l ≠ []),
      x ≤ l.getLast hne := by
  intro l
  induction l with
  | nil => intro _ x hx; cases hx
  | cons y rest ih =>
      intro h x hx hne
      cases rest with
      | nil =>
          rcases List.mem_singleton.mp hx with rfl
          exact le_refl _
      | cons z zs =>
          rw [List.getLast_cons (List.cons_ne_nil z zs)]
          rcases List.mem_cons.mp hx with rfl | hx'
          · exact le_of_lt ((List.pairwise_cons.mp h).1 _ (List.getLast_mem _))
          · exact ih (List.pairwise_cons.mp h).2 x hx' (List.cons_ne_nil z zs)

theorem unpadAxis_window (shape : List ℕ) (data : List ℕ → ℚ) (a : ℕ) (idx : List ℕ) :
    (unpadAxis shape data a).1.2 idx
      = data (idx.set a (idx.getD a 0 + (unpadAxis shape data a).2)) := by
  unfold unpadAxis
  cases h : nonZeroIdx shape data a with
  | nil =>
      show data idx = data (idx.set a (idx.getD a 0 + 0))
      rw [Nat.add_zero, set_getD_self]
  | cons i0 rest => rfl

theorem unpadAxis_shape_length (shape : List ℕ) (data : List ℕ → ℚ) (a : ℕ) :
    (unpadAxis shape data a).1.1.length = shape.length := by
  unfold unpadAxis
  cases h : nonZeroIdx shape data a with
  | nil => rfl
  | cons i0 rest => simp

theorem unpadAxis_shape_ne (shape : List ℕ) (data : List ℕ → ℚ) (a k : ℕ) (hk : k ≠ a) :
    (unpadAxis shape data a).1.1.getD k 0 = shape.getD k 0 := by
  unfold unpadAxis
  cases h : nonZeroIdx shape data a with
  | nil => rfl
  | cons i0 rest =>
      show (shape.set a _).getD k 0 = shape.getD k 0
      rw [List.getD_eq_getElem?_getD, List.getD_eq_getElem?_getD,
        List.getElem?_set_ne (Ne.symm hk)]

theorem lt_length_of_getD_pos (l : List ℕ) (a : ℕ) (h : 0 < l.getD a 0) : a < l.length := by
  by_contra hge
  rw [List.getD_eq_getElem?_getD, List.getElem?_eq_none (Nat.le_of_not_lt hge)] at h
  exact absurd h (lt_irrefl 0)

theorem getD_set_self (l : List ℕ) (a w : ℕ) (h : a < l.length) :
    (l.set a w).getD a 0 = w := by
  rw [List.getD_eq_getElem?_getD, List.getElem?_set_eq_of_lt w h]
  rfl

theorem unpadAxis_crop (shape : List ℕ) (data : List ℕ → ℚ) (a : ℕ) :
    (∀ i, i < (unpadAxis shape data a).2 → |axisSum shape data a i| ≤ atol)
      ∧ (∀ i, (unpadAxis shape data a).2 + (unpadAxis shape data a).1.1.getD a 0 ≤ i →
          i < shape.getD a 0 → |axisSum shape data a i| ≤ atol)
      ∧ (unpadAxis shape data a).2 + (unpadAxis shape data a).1.1.getD a 0
          ≤ shape.getD a 0 := by
  unfold unpadAxis
  cases h : nonZeroIdx shape data a with
  | nil =>
      show (∀ i, i < 0 → _) ∧ (∀ i, 0 + shape.getD a 0 ≤ i → i < shape.getD a 0 → _)
        ∧ 0 + shape.getD a 0 ≤ shape.getD a 0
      exact ⟨fun i hi => absurd hi (Nat.not_lt_zero i),
        fun i h0 hi => absurd hi (by omega), by omega⟩
  | cons i0 rest =>
      have hpw : (i0 :: rest).Pairwise (· < ·) := h ▸ nonZeroIdx_pairwise shape data a
      have hi0mem : i0 ∈ nonZeroIdx shape data a := by rw [h]; exact List.mem_cons_self _ _
      have hi0lt : i0 < shape.getD a 0 := ((mem_nonZeroIdx shape data a i0).mp hi0mem).1
      have halen : a < shape.length := lt_length_of_getD_pos shape a (Nat.lt_of_le_of_lt (Nat.zero_le i0) hi0lt)
      set R := (i0 :: rest).getLast (List.cons_ne_nil i0 rest) + 1 with hR
      have hlastmem : (i0 :: rest).getLast (List.cons_ne_nil i0 rest) ∈ nonZeroIdx shape data a := by
        rw [h]; exact List.getLast_mem _
      have hlastlt : (i0 :: rest).getLast (List.cons_ne_nil i0 rest) < shape.getD a 0 :=
        ((mem_nonZeroIdx shape data a _).mp hlastmem).1
      have hi0le : i0 ≤ (i0 :: rest).getLast (List.cons_ne_nil i0 rest) :=
        sorted_le_getLast _ hpw i0 (List.mem_cons_self _ _) _
      show (∀ i, i < i0 → _) ∧
        (∀ i, i0 + (shape.set a (R - i0)).getD a 0 ≤ i → i < shape.getD a 0 → _)
        ∧ i0 + (shape.set a (R - i0)).getD a 0 ≤ shape.getD a 0
      rw [getD_set_self shape a (R - i0) halen]
      refine ⟨?_, ?_, by omega⟩
      · intro i hi
        by_contra hc
        have himem : i ∈ nonZeroIdx shape data a :=
          (mem_nonZeroIdx shape data a i).mpr ⟨Nat.lt_trans hi hi0lt, lt_of_not_le hc⟩
        rw [h] at himem
        exact absurd (sorted_head_le hpw i himem) (by omega)
      · intro i hge hlt
        by_contra hc
        have himem : i ∈ nonZeroIdx shape data a :=
          (mem_nonZeroIdx shape data a i).mpr ⟨hlt, lt_of_not_le hc⟩
        rw [h] at himem
        have := sorted_le_getLast _ hpw i himem (List.cons_ne_nil i0 rest)
        omega

theorem zipWith_add_replicate_zero :
    ∀ (idx : List ℕ) (n : ℕ), idx.length = n →
      List.zipWith (· + ·) idx (List.replicate n 0) = idx := by
  intro idx
  induction idx with
  | nil => intro n h; simp
  | cons x xs ih =>
      intro n h
      cases n with
      | zero => cases h
      | succ m =>
          simp only [List.replicate, List.zipWith, Nat.add_zero]
          rw [ih m (by simpa using h)]

theorem zadd_set (idx : List ℕ) :
    ∀ (offs : List ℕ) (k l : ℕ), k < idx.length → k < offs.length →
    (List.zipWith (· + ·) idx offs).set k ((List.zipWith (· + ·) idx offs).getD k 0 + l)
      = List.zipWith (· + ·) idx (offs.set k (offs.getD k 0 + l)) := by
  induction idx with
  | nil => intro offs k l hki; cases hki
  | cons x xs ih =>
      intro offs k l hki hko
      cases offs with
      | nil => cases hko
      | cons o os =>
          cases k with
          | zero =>
              simp only [List.zipWith, List.set, List.getD_cons_zero]
              rw [Nat.add_assoc]
          | succ m =>
              simp only [List.zipWith, List.set, List.getD_cons_succ]
              congr 1
              exact ih os m l (by simpa using hki) (by simpa using hko)

theorem getD_replicate_zero (n k : ℕ) : (List.replicate n (0 : ℕ)).getD k 0 = 0 := by
  rw [List.getD_eq_getElem?_getD]
  by_cases h : k < n
  · rw [List.getElem?_eq_getElem (by simpa using h)]
    simp
  · rw [List.getElem?_eq_none (by simpa using Nat.le_of_not_lt h)]
    rfl

theorem getD_set_ne (l : List ℕ) (a k w : ℕ) (h : k ≠ a) :
    (l.set a w).getD k 0 = l.getD k 0 := by
  rw [List.getD_eq_getElem?_getD, List.getD_eq_getElem?_getD, List.getElem?_set_ne (Ne.symm h)]

theorem unpadLoop_spec (dims : List String) :
    ∀ (ks : List ℕ) (shape : List ℕ) (data : List ℕ → ℚ),
      ks.Nodup → (∀ k ∈ ks, k < shape.length) →
      ∃ offs : List ℕ,
        offs.length = shape.length
        ∧ (∀ k, k ∉ ks → offs.getD k 0 = 0)
        ∧ (∀ k, dims.getD k "" = "c" → offs.getD k 0 = 0)
        ∧ (unpadLoop dims ks shape data).1.1.length = shape.length
        ∧ (∀ k, k ∉ ks → (unpadLoop dims ks shape data).1.1.getD k 0 = shape.getD k 0)
        ∧ (∀ k, dims.getD k "" = "c" →
            (unpadLoop dims ks shape data).1.1.getD k 0 = shape.getD k 0)
        ∧ (∀ k, offs.getD k 0 + (unpadLoop dims ks shape data).1.1.getD k 0 ≤ shape.getD k 0)
        ∧ (∀ idx : List ℕ, idx.length = shape.length →
            (unpadLoop dims ks shape data).1.2 idx = data (List.zipWith (· + ·) idx offs))
        ∧ ((unpadLoop dims ks shape data).2.1
            = (ks.filter fun k => !(dims.getD k "" == "c")).map fun k => dims.getD k "")
        ∧ ((unpadLoop dims ks shape data).2.2
            = (ks.filter fun k => !(dims.getD k "" == "c")).map
                fun k => ((offs.getD k 0 : ℕ) : ℚ)) := by
  intro ks
  induction ks with
  | nil =>
      intro shape data _ _
      refine ⟨List.replicate shape.length 0, by simp, ?_, ?_, rfl, ?_, ?_, ?_, ?_, rfl, rfl⟩
      · intro k _; exact getD_replicate_zero _ _
      · intro k _; exact getD_replicate_zero _ _
      · intro k _; rfl
      · intro k _; rfl
      · intro k
        rw [getD_replicate_zero]
        show 0 + shape.getD k 0 ≤ shape.getD k 0
        omega
      · intro idx hlen
        show data idx = _
        rw [zipWith_add_replicate_zero idx shape.length hlen]
  | cons k rest ih =>
      intro shape data hnd hbound
      have hknotin : k ∉ rest := (List.nodup_cons.mp hnd).1
      have hndrest : rest.Nodup := (List.nodup_cons.mp hnd).2
      have hklen : k < shape.length := hbound k (List.mem_cons_self _ _)
      by_cases hc : dims.getD k "" = "c"
      · -- channel axis: skipped entirely
        obtain ⟨offs, h1, h2, h3, h4, h5, h6, h7, h8, h9, h10⟩ :=
          ih shape data hndrest (fun j hj => hbound j (List.mem_cons_of_mem _ hj))
        rw [unpadLoop, if_pos hc]
        refine ⟨offs, h1, ?_, h3, h4, ?_, h6, h7, h8, ?_, ?_⟩
        · intro j hj
          by_cases hjk : j = k
          · subst hjk; exact h3 j hc
          · exact h2 j fun hmem => hj (List.mem_cons_of_mem _ hmem)
        · intro j hj
          by_cases hjk : j = k
          · subst hjk; exact h6 j hc
          · exact h5 j fun hmem => hj (List.mem_cons_of_mem _ hmem)
        · rw [h9, List.filter_cons_of_neg (by rw [beq_iff_eq.mpr hc]; decide)]
        · rw [h10, List.filter_cons_of_neg (by rw [beq_iff_eq.mpr hc]; decide)]
      · -- unpadded axis
        have hax := unpadAxis_window shape data k
        have hcrop := unpadAxis_crop shape data k
        have hlen' : (unpadAxis shape data k).1.1.length = shape.length :=
          unpadAxis_shape_length shape data k
        obtain ⟨offs, h1, h2, h3, h4, h5, h6, h7, h8, h9, h10⟩ :=
          ih (unpadAxis shape data k).1.1 (unpadAxis shape data k).1.2 hndrest
            (fun j hj => hlen' ▸ hbound j (List.mem_cons_of_mem _ hj))
        have hoffk : offs.getD k 0 = 0 := h2 k hknotin
        have hofflen : k < offs.length := by rw [h1, hlen']; exact hklen
        rw [unpadLoop, if_neg hc]
        simp only []
        refine ⟨offs.set k (offs.getD k 0 + (unpadAxis shape data k).2), ?_, ?_, ?_, ?_, ?_,
          ?_, ?_, ?_, ?_, ?_⟩
        · rw [List.length_set, h1, hlen']
        · intro j hj
          have hjk : j ≠ k := fun hh => hj (hh ▸ List.mem_cons_self _ _)
          rw [getD_set_ne _ _ _ _ hjk]
          exact h2 j fun hmem => hj (List.mem_cons_of_mem _ hmem)
        · intro j hj
          have hjk : j ≠ k := fun hh => hc (hh ▸ hj)
          rw [getD_set_ne _ _ _ _ hjk]
          exact h3 j hj
        · rw [h4, hlen']
        · intro j hj
          have hjk : j ≠ k := fun hh => hj (hh ▸ List.mem_cons_self _ _)
          rw [h5 j fun hmem => hj (List.mem_cons_of_mem _ hmem)]
          exact unpadAxis_shape_ne shape data k j hjk
        · intro j hj
          have hjk : j ≠ k := fun hh => hc (hh ▸ hj)
          rw [h6 j hj]
          exact unpadAxis_shape_ne shape data k j hjk
        · intro j
          by_cases hjk : j = k
          · subst hjk
            rw [getD_set_self offs j _ hofflen, hoffk]
            have hle := h7 j
            rw [hoffk] at hle
            have hcrop3 := hcrop.2.2
            omega
          · rw [getD_set_ne _ _ _ _ hjk]
            have hle := h7 j
            rw [unpadAxis_shape_ne shape data k j hjk] at hle
            exact hle
        · intro idx hlen
          show (unpadLoop dims rest (unpadAxis shape data k).1.1 (unpadAxis shape data k).1.2).1.2 idx = _
          rw [h8 idx (by rw [hlen, hlen'])]
          rw [hax (List.zipWith (· + ·) idx offs)]
          rw [zadd_set idx offs k (unpadAxis shape data k).2 (by rw [hlen]; exact hklen) hofflen]
        · rw [List.filter_cons_of_pos (by rw [beq_eq_false_iff_ne.mpr hc]; decide)]
          show dims.getD k "" :: _ = _
          rw [h9, List.map_cons]
        · rw [List.filter_cons_of_pos (by rw [beq_eq_false_iff_ne.mpr hc]; decide)]
          show ((unpadAxis shape data k).2 : ℚ) :: _ = _
          rw [h10, List.map_cons]
          rw [getD_set_self offs k _ hofflen, hoffk]
          congr 1
          · rw [Nat.zero_add]
          · apply List.map_congr_left
            intro j hj
            have hjmem : j ∈ rest := List.mem_of_mem_filter hj
            have hjk : j ≠ k := fun hh => hknotin (hh ▸ hjmem)
            rw [getD_set_ne _ _ _ _ hjk]

theorem cx_nz1 : nonZeroIdx [2, 2] exPadData 0 = [1] := by
  have h0 : axisSum [2, 2] exPadData 0 0 = 0 := by
    simp [axisSum, allIndices, List.range_succ, exPadData]
  have h1 : axisSum [2, 2] exPadData 0 1 = 8 := by
    simp [axisSum, allIndices, List.range_succ, exPadData]; norm_num
  simp [nonZeroIdx, List.range_succ, List.filter, h0, h1, atol]
  norm_num

theorem cx_step1 : unpadAxis [2, 2] exPadData 0
    = (([1, 2], fun idx => exPadData (idx.set 0 (idx.getD 0 0 + 1))), 1) := by
  unfold unpadAxis
  rw [cx_nz1]
  rfl

theorem cx_nz2 :
    nonZeroIdx [1, 2] (fun idx => exPadData (idx.set 0 (idx.getD 0 0 + 1))) 1 = [0, 1] := by
  have h0 : axisSum [1, 2] (fun idx => exPadData (idx.set 0 (idx.getD 0 0 + 1))) 1 0 = 3 := by
    simp [axisSum, allIndices, List.range_succ, exPadData]
  have h1 : axisSum [1, 2] (fun idx => exPadData (idx.set 0 (idx.getD 0 0 + 1))) 1 1 = 5 := by
    simp [axisSum, allIndices, List.range_succ, exPadData]
  unfold nonZeroIdx
  show (List.range 2).filter _ = [0, 1]
  rw [show List.range 2 = [0, 1] from by simp [List.range_succ]]
  rw [List.filter_cons_of_pos (by rw [decide_eq_true_eq, h0]; norm_num [atol]),
    List.filter_cons_of_pos (by rw [decide_eq_true_eq, h1]; norm_num [atol]),
    List.filter_nil]

theorem cx_step2 : unpadAxis [1, 2] (fun idx => exPadData (idx.set 0 (idx.getD 0 0 + 1))) 1
    = (([1, 2], fun idx => exPadData ((idx.set 1 (idx.getD 1 0 + 0)).set 0
        ((idx.set 1 (idx.getD 1 0 + 0)).getD 0 0 + 1))), 0) := by
  unfold unpadAxis
  rw [cx_nz2]
  rfl

theorem unpadLoop_cons_step (dims : List String) (k : ℕ) (ks : List ℕ) (shape : List ℕ)
    (data : List ℕ → ℚ) (hnc : ¬ dims.getD k "" = "c")
    (s' : List ℕ) (d' : List ℕ → ℚ) (l : ℕ)
    (hstep : unpadAxis shape data k = ((s', d'), l)) :
    unpadLoop dims (k :: ks) shape data
      = ((unpadLoop dims ks s' d').1,
          dims.getD k "" :: (unpadLoop dims ks s' d').2.1,
          ((l : ℕ) : ℚ) :: (unpadLoop dims ks s' d').2.2) := by
  rw [unpadLoop, if_neg hnc, hstep]

theorem cx_loop :
    unpadLoop ["y", "x"] [0, 1] [2, 2] exPadData
      = (([1, 2],
          fun idx => exPadData ((idx.set 1 (idx.getD 1 0 + 0)).set 0
            ((idx.set 1 (idx.getD 1 0 + 0)).getD 0 0 + 1))),
         ["y", "x"], [((1 : ℕ) : ℚ), ((0 : ℕ) : ℚ)]) := by
  rw [unpadLoop_cons_step ["y", "x"] 0 [1] [2, 2] exPadData (by decide) _ _ _ cx_step1]
  rw [unpadLoop_cons_step ["y", "x"] 1 [] [1, 2] _ (by decide) _ _ _ cx_step2]
  rfl

/-- C10 counterexample: the claim that `unpad_raster` crops only contiguous
*all-zero* border slices is false on the code. On the concrete 2×2 raster whose
y = 0 slice holds the values 1 and −1 (summing to zero without being zero), the
code crops that slice: the y left pad is 1, the returned shape is [1, 2] and
the returned data starts at the old row 1 — although the cropped slice
contained the nonzero values 1 and −1. -/
theorem C10_unpad_counterexample :
    unpadTranslationAxes exPadRaster = ["y", "x"]
      ∧ unpadTranslationValues exPadRaster = [1, 0]
      ∧ (unpadRaster exPadRaster).shape = [1, 2]
      ∧ (unpadRaster exPadRaster).data [0, 0] = 3
      ∧ exPadRaster.data [0, 0] = 1 ∧ exPadRaster.data [0, 1] = -1 := by
  have hr : List.range 2 = [0, 1] := by simp [List.range_succ]
  refine ⟨?_, ?_, ?_, ?_, rfl, rfl⟩
  · show (unpadLoop ["y", "x"] (List.range 2) [2, 2] exPadData).2.1 = _
    rw [hr, cx_loop]
  · show (unpadLoop ["y", "x"] (List.range 2) [2, 2] exPadData).2.2 = _
    rw [hr, cx_loop]
    norm_num
  · show (unpadLoop ["y", "x"] (List.range 2) [2, 2] exPadData).1.1 = _
    rw [hr, cx_loop]
  · show (unpadLoop ["y", "x"] (List.range 2) [2, 2] exPadData).1.2 [0, 0] = _
    rw [hr, cx_loop]
    rfl

/-- C10 (amended): `_unpad_axis` crops only contiguous border slices whose sum
over the other axes is within the absolute tolerance 1e-8 of zero (judged on
the data as cropped so far), returning a translated window of its input;
`unpad_raster` never touches the channel axis `"c"` (offset 0, extent
preserved), returns a contiguous window of the input data shifted by the
per-axis left pads, collects exactly the non-channel axis names and left pads
into the Translation, and registers, for every coordinate system of the input,
the Sequence of that Translation followed by the old transformation. -/
theorem C10_unpad_raster_amended :
    (∀ (shape : List ℕ) (data : List ℕ → ℚ) (a : ℕ),
        (∀ idx, (unpadAxis shape data a).1.2 idx
            = data (idx.set a (idx.getD a 0 + (unpadAxis shape data a).2)))
          ∧ (∀ i, i < (unpadAxis shape data a).2 → |axisSum shape data a i| ≤ atol)
          ∧ (∀ i, (unpadAxis shape data a).2 + (unpadAxis shape data a).1.1.getD a 0 ≤ i →
              i < shape.getD a 0 → |axisSum shape data a i| ≤ atol)
          ∧ (unpadAxis shape data a).2 + (unpadAxis shape data a).1.1.getD a 0
              ≤ shape.getD a 0)
      ∧ (∀ r : Raster, r.shape.length = r.dims.length →
          ∃ offs : List ℕ,
            offs.length = r.shape.length
            ∧ (∀ k, r.dims.getD k "" = "c" →
                offs.getD k 0 = 0 ∧ (unpadRaster r).shape.getD k 0 = r.shape.getD k 0)
            ∧ (unpadRaster r).shape.length = r.shape.length
            ∧ (∀ k, offs.getD k 0 + (unpadRaster r).shape.getD k 0 ≤ r.shape.getD k 0)
            ∧ (∀ idx, idx.length = r.shape.length →
                (unpadRaster r).data idx = r.data (List.zipWith (· + ·) idx offs))
            ∧ (unpadTranslationAxes r
                = (((List.range r.dims.length).filter
                    fun k => !(r.dims.getD k "" == "c")).map fun k => r.dims.getD k ""))
            ∧ (unpadTranslationValues r
                = (((List.range r.dims.length).filter
                    fun k => !(r.dims.getD k "" == "c")).map
                      fun k => ((offs.getD k 0 : ℕ) : ℚ))))
      ∧ (∀ (r : Raster) (cs : String) (t : UTrans), (cs, t) ∈ r.transformations →
          (cs, UTrans.sequence
            [UTrans.translation (unpadTranslationValues r) (unpadTranslationAxes r), t])
            ∈ (unpadRaster r).transformations) := by
  refine ⟨?_, ?_, ?_⟩
  · intro shape data a
    exact ⟨unpadAxis_window shape data a, (unpadAxis_crop shape data a).1,
      (unpadAxis_crop shape data a).2.1, (unpadAxis_crop shape data a).2.2⟩
  · intro r hlen
    obtain ⟨offs, h1, h2, h3, h4, h5, h6, h7, h8, h9, h10⟩ :=
      unpadLoop_spec r.dims (List.range r.dims.length) r.shape r.data
        (List.nodup_range _) (fun k hk => by rw [hlen]; exact List.mem_range.mp hk)
    refine ⟨offs, h1, ?_, h4, h7, h8, h9, h10⟩
    intro k hk
    exact ⟨h3 k hk, h6 k hk⟩
  · intro r cs t hmem
    exact List.mem_map.mpr ⟨(cs, t), hmem, rfl⟩

/-- Witness for the amended C10 at the concrete counterexample raster. -/
theorem C10_unpad_raster_amended_witness :
    ("global", UTrans.sequence
      [UTrans.translation (unpadTranslationValues exPadRaster)
        (unpadTranslationAxes exPadRaster), UTrans.identity])
      ∈ (unpadRaster exPadRaster).transformations :=
  C10_unpad_raster_amended.2.2 exPadRaster "global" UTrans.identity
    (List.mem_singleton.mpr rfl)

end Unpad

end SpatialData
